import Mathlib

/-
  Verification development for the wall-junction preparation and rendering
  code of the Continuum source file Junctions_annotated.c.

  The C code is shallowly embedded: the global arrays (walls, white pieces,
  junctions) become lists, 16-bit machine integers become Nat values reduced
  mod 2^16 where wrap-around matters, pixel coordinates become Int, and the
  sentinel-terminated scans of the C code become structural recursions that
  stop at the end of the list (the sentinel value 20000 is kept where a loop
  compares against it).

  The giant direction-pair switch of one_close is only partially present in
  the source file (cases 0, 1, 2 and the no-op cases 3, 4, 5 are written out;
  the remaining direction cases are elided behind a comment).  The elided
  cases are therefore taken as an explicit parameter, constrained to the
  shape the specification describes for every rule: they may narrow h1/h2 of
  the two walls of the call and insert white pieces through the add/replace
  entry points.  Theorems about the pipeline quantify over that parameter.
-/

set_option maxRecDepth 10000

/-! ## Data model -/

/-- A wall record: the fields of linerec that the junction code reads or
writes.  Coordinates are pixel positions, newtype is the direction code
(1 = S, 2 = SSE, 3 = SE, 4 = ESE, 5 = E, 6 = ENE, 7 = NE, 8 = NNE), and
h1/h2 are the visible-shading bounds mutated by close_whites. -/
structure linerec where
  startx : Int
  starty : Int
  endx : Int
  endy : Int
  length : Int
  newtype : Int
  h1 : Int
  h2 : Int
deriving DecidableEq, Repr

/-- A white shading piece: position, height, bitmap rows (16-bit patterns,
one Nat per row) and the junction flag set by white_hash_merge. -/
structure whiterec where
  x : Int
  y : Int
  ht : Int
  data : List Nat
  hasj : Bool
deriving DecidableEq, Repr

def noWall : linerec := ⟨0, 0, 0, 0, 0, 0, 0, 0⟩

def noWhite : whiterec := ⟨0, 0, 0, [], false⟩

/-- Endpoint selector: i = false is the start point, i = true the end point,
matching the (i ? line->endx : line->startx) idiom. -/
def epx (l : linerec) (i : Bool) : Int := if i then l.endx else l.startx

def epy (l : linerec) (i : Bool) : Int := if i then l.endy else l.starty

/-! ## Bit-pattern tables (copied bit for bit from the source) -/

def hash_figure : List Nat := [0x8000, 0x6000, 0x1800, 0x0600, 0x0180, 0x0040]

def neglitch : List Nat := [0xEFFF, 0xCFFF, 0x8FFF, 0x0FFF]

def eneglitch1 : List Nat := [0x07FF, 0x1FFF, 0x7FFF]

def eneglitch2 : List Nat := [0xFF3F, 0xFC3F, 0xF03F, 0xC03F, 0x003F]

def eseglitch : List Nat := [0x3FFF, 0xCFFF, 0xF3FF, 0xFDFF]

def generictop : List Nat := [0xFFFF, 0x3FFF, 0x0FFF, 0x03FF, 0x00FF, 0x007F]

def nnebot : List Nat := [0x800F, 0xC01F, 0xF01F, 0xFC3F, 0xFF3F, 0xFFFF]

def nebot : List Nat := [0x8001, 0xC003, 0xF007, 0xFC0F, 0xFF1F, 0xFFFF]

def eneleft : List Nat := [0x8000, 0xC000, 0xF000, 0xFC01, 0xFF07, 0xFFDF]

def eleft : List Nat := [0xFFFF, 0xFFFF, 0xF000, 0xFC00, 0xFF00, 0xFF80]

def eseright : List Nat := [0xFFFF, 0x3FFF, 0x8FFF, 0xE3FF, 0xF8FF, 0xFE7F]

def setop : List Nat := [0xFFFF, 0xFFFF, 0xEFFF, 0xF3FF, 0xF8FF, 0xFC3F]

def sebot : List Nat := [0x87FF, 0xC3FF, 0xF1FF, 0xFCFF, 0xFF7F, 0xFFFF]

def ssetop : List Nat := [0xFFFF, 0xBFFF, 0xCFFF, 0xC3FF, 0xE0FF, 0xE03F]

def ssebot : List Nat := [0x80FF, 0xC07F, 0xF07F, 0xFC3F, 0xFF3F, 0xFFFF]

def sbot : List Nat := [0x803F, 0xC03F, 0xF03F, 0xFC3F, 0xFF3F, 0xFFFF]

/-- whitepicts: start and end white patterns per wall direction. -/
def whitepicts : Int → Option (List Nat) × Option (List Nat)
  | 1 => (some generictop, some sbot)
  | 2 => (some ssetop, some ssebot)
  | 3 => (some setop, some sebot)
  | 4 => (none, some eseright)
  | 5 => (some eleft, some generictop)
  | 6 => (some eneleft, some generictop)
  | 7 => (some nebot, some generictop)
  | 8 => (some nnebot, some generictop)
  | _ => (none, none)

/-- Default h1 values per direction (simpleh1 in the source). -/
def simpleh1 : Int → Int
  | 1 => 6 | 2 => 6 | 3 => 6 | 4 => 12 | 5 => 16 | 6 => 0 | 7 => 1 | 8 => 0
  | _ => 0

/-- Default trailing h2 offsets per direction (simpleh2 in the source). -/
def simpleh2 : Int → Int
  | 1 => 0 | 2 => 0 | 3 => 0 | 4 => -1 | 5 => 0 | 6 => -11 | 7 => -5 | 8 => -5
  | _ => 0

/-- The diagonal 4-row patch of one_close case 2 (nepatch in the source). -/
def nepatchData : List Nat := [0xE000, 0xC001, 0x8003, 0x0007]

/-- The generic 22-row patch (npatch in the source, every row 0x003F). -/
def npatchData : List Nat := List.replicate 22 0x003F

/-! ## JunctionFinder: step 3 of init_walls -/

/-- Both endpoints of every wall, in wall-list order, start before end:
exactly the traversal order of the junction-finding loop of init_walls. -/
def endpoints (ls : List linerec) : List (Int × Int) :=
  ls.foldr (fun l acc => (l.startx, l.starty) :: (l.endx, l.endy) :: acc) []

/-- The proximity test of the junction scan: junction j lies within plus or
minus 3 pixels of point p on both axes. -/
def nearB (j p : Int × Int) : Bool :=
  decide (j.1 ≤ p.1 + 3 ∧ j.1 ≥ p.1 - 3 ∧ j.2 ≤ p.2 + 3 ∧ j.2 ≥ p.2 - 3)

/-- The incremental junction clustering loop: for each endpoint, scan the
junctions built so far; append a new junction only when none is near. -/
def findJGo : List (Int × Int) → List (Int × Int) → List (Int × Int)
  | js, [] => js
  | js, p :: r =>
    if js.any (fun j => nearB j p) then findJGo js r
    else findJGo (js ++ [p]) r

def findJunctions (eps : List (Int × Int)) : List (Int × Int) := findJGo [] eps

/-- The same loop, additionally recording for every endpoint the junction it
joined: the first near junction found by the scan, or the endpoint itself
when it founds a new junction. -/
def assignGo : List (Int × Int) → List (Int × Int) →
    List ((Int × Int) × (Int × Int))
  | _, [] => []
  | js, p :: r =>
    match js.find? (fun j => nearB j p) with
    | some j => (p, j) :: assignGo js r
    | none => (p, p) :: assignGo (js ++ [p]) r

def assignJunctions (eps : List (Int × Int)) : List ((Int × Int) × (Int × Int)) :=
  assignGo [] eps

/-! Basic facts about the junction pass. -/

theorem nearB_eq_true_iff (j p : Int × Int) :
    nearB j p = true ↔
      (j.1 ≤ p.1 + 3 ∧ p.1 ≤ j.1 + 3 ∧ j.2 ≤ p.2 + 3 ∧ p.2 ≤ j.2 + 3) := by
  simp only [nearB, decide_eq_true_eq]
  omega

theorem assignGo_near :
    ∀ (eps js : List (Int × Int)), ∀ pq ∈ assignGo js eps,
      pq.2.1 ≤ pq.1.1 + 3 ∧ pq.1.1 ≤ pq.2.1 + 3 ∧
      pq.2.2 ≤ pq.1.2 + 3 ∧ pq.1.2 ≤ pq.2.2 + 3 := by
  intro eps
  induction eps with
  | nil => intro js pq h; simp [assignGo] at h
  | cons p r ih =>
    intro js pq h
    simp only [assignGo] at h
    cases hf : js.find? (fun j => nearB j p) with
    | some j =>
      rw [hf] at h
      rcases List.mem_cons.mp h with h | h
      · subst h
        have := List.find?_some hf
        exact (nearB_eq_true_iff j p).mp this
      · exact ih js pq h
    | none =>
      rw [hf] at h
      rcases List.mem_cons.mp h with h | h
      · subst h
        show p.1 ≤ p.1 + 3 ∧ p.1 ≤ p.1 + 3 ∧ p.2 ≤ p.2 + 3 ∧ p.2 ≤ p.2 + 3
        omega
      · exact ih (js ++ [p]) pq h

/-- The separation relation between two junctions: they differ by more than
3 pixels on at least one axis. -/
def jSep (a b : Int × Int) : Prop :=
  ¬(a.1 ≤ b.1 + 3 ∧ b.1 ≤ a.1 + 3 ∧ a.2 ≤ b.2 + 3 ∧ b.2 ≤ a.2 + 3)

instance (a b : Int × Int) : Decidable (jSep a b) := by
  unfold jSep; infer_instance

theorem findJGo_pairwise :
    ∀ (eps js : List (Int × Int)), js.Pairwise jSep →
      (findJGo js eps).Pairwise jSep := by
  intro eps
  induction eps with
  | nil => intro js h; simpa [findJGo] using h
  | cons p r ih =>
    intro js h
    simp only [findJGo]
    by_cases hany : js.any (fun j => nearB j p) = true
    · rw [if_pos hany]; exact ih js h
    · rw [if_neg hany]
      refine ih (js ++ [p]) ?_
      rw [List.pairwise_append]
      refine ⟨h, List.pairwise_singleton _ _, ?_⟩
      intro a ha b hb
      have hb2 : b = p := by simpa using hb
      rw [hb2]
      have hfalse : nearB a p = false := by
        have := List.any_eq_false.mp (Bool.of_not_eq_true hany) a ha
        simpa using this
      intro hcon
      have : nearB a p = true := (nearB_eq_true_iff a p).mpr hcon
      rw [hfalse] at this
      exact Bool.false_ne_true this

/-- Concrete walls for exercising the junction pass: endpoints
(0,0), (6,0), (3,0), (100,100) in traversal order. -/
def cexWallA : linerec := ⟨0, 0, 6, 0, 6, 5, 0, 0⟩

def cexWallB : linerec := ⟨3, 0, 100, 100, 100, 3, 0, 0⟩

/-- C1 (counterexample): after the junction pass of init_walls over the two
walls above, the endpoints (3,0) and (6,0) differ by at most 3 pixels on both
axes, yet (3,0) joins the junction (0,0) (the first near junction in scan
order) while (6,0) is its own junction, so they are in distinct clusters —
refuting the claim that all endpoint pairs within 3 pixels on both axes end
up in the same cluster. -/
theorem c1_counterexample :
    assignJunctions (endpoints [cexWallA, cexWallB]) =
      [((0, 0), (0, 0)), ((6, 0), (6, 0)), ((3, 0), (0, 0)),
        ((100, 100), (100, 100))] ∧
    ((3 : Int) ≤ 6 + 3 ∧ (6 : Int) ≤ 3 + 3 ∧ (0 : Int) ≤ 0 + 3 ∧
      (0 : Int) ≤ 0 + 3) ∧
    ((0, 0) : Int × Int) ≠ ((6, 0) : Int × Int) := by decide

/-- C1 (amended): after the junction pass over both endpoints of every wall
in wall-list order, (i) every endpoint lies within 3 pixels on both axes of
the junction it joined, (ii) any two distinct junctions differ by more than
3 pixels on at least one axis, and (iii) consequently two endpoints that
differ by more than 6 pixels on some axis always belong to distinct
junctions. -/
theorem junction_pass_clusters (ls : List linerec) :
    (∀ pq ∈ assignJunctions (endpoints ls),
        pq.2.1 ≤ pq.1.1 + 3 ∧ pq.1.1 ≤ pq.2.1 + 3 ∧
        pq.2.2 ≤ pq.1.2 + 3 ∧ pq.1.2 ≤ pq.2.2 + 3) ∧
    (findJunctions (endpoints ls)).Pairwise jSep ∧
    (∀ pq ∈ assignJunctions (endpoints ls),
      ∀ qr ∈ assignJunctions (endpoints ls),
        (pq.1.1 + 6 < qr.1.1 ∨ qr.1.1 + 6 < pq.1.1 ∨
         pq.1.2 + 6 < qr.1.2 ∨ qr.1.2 + 6 < pq.1.2) → pq.2 ≠ qr.2) := by
  refine ⟨assignGo_near (endpoints ls) [], findJGo_pairwise (endpoints ls) [] (by simp), ?_⟩
  intro pq hpq qr hqr hfar heq
  have ha := assignGo_near (endpoints ls) [] pq hpq
  have hb := assignGo_near (endpoints ls) [] qr hqr
  have e1 : pq.2.1 = qr.2.1 := by rw [heq]
  have e2 : pq.2.2 = qr.2.2 := by rw [heq]
  omega

/-- C1 (witness): the amended theorem applied to the concrete wall list:
the endpoints (3,0) and (100,100) are more than 6 pixels apart, so they get
distinct junctions. -/
theorem c1_witness :
    ((0, 0) : Int × Int) ≠ ((100, 100) : Int × Int) :=
  (junction_pass_clusters [cexWallA, cexWallB]).2.2
    ((3, 0), (0, 0)) (by decide) ((100, 100), (100, 100)) (by decide)
    (by decide)

/-! ## White piece list operations (add_white, replace_white_2) -/

/-- add_white: append a new piece with the junction flag cleared. -/
def add_white (x y ht : Int) (d : List Nat) (ws : List whiterec) :
    List whiterec :=
  ws ++ [⟨x, y, ht, d, false⟩]

/-- replace_white_2: scan for the first piece at the target position with a
strictly smaller height; when found overwrite its position, height and data
in place; when no piece matches, return (the list is unchanged). -/
def replace_white_2 (tx ty x y ht : Int) (d : List Nat) :
    List whiterec → List whiterec
  | [] => []
  | w :: r =>
    if w.y = ty ∧ w.x = tx ∧ w.ht < ht then ⟨x, y, ht, d, w.hasj⟩ :: r
    else w :: replace_white_2 tx ty x y ht d r

theorem replace_white_2_nomatch (tx ty x y ht : Int) (d : List Nat) :
    ∀ ws : List whiterec,
      (∀ w ∈ ws, ¬(w.y = ty ∧ w.x = tx ∧ w.ht < ht)) →
      replace_white_2 tx ty x y ht d ws = ws := by
  intro ws
  induction ws with
  | nil => intro _; rfl
  | cons w r ih =>
    intro h
    have hw := h w (List.mem_cons_self w r)
    simp only [replace_white_2, if_neg hw]
    rw [ih (fun w' hw' => h w' (List.mem_cons_of_mem w hw'))]

theorem replace_white_2_first (tx ty x y ht : Int) (d : List Nat) :
    ∀ (ws : List whiterec) (k : Nat), k < ws.length →
      ((ws.getD k noWhite).y = ty ∧ (ws.getD k noWhite).x = tx ∧
        (ws.getD k noWhite).ht < ht) →
      (∀ k', k' < k → ¬((ws.getD k' noWhite).y = ty ∧
        (ws.getD k' noWhite).x = tx ∧ (ws.getD k' noWhite).ht < ht)) →
      replace_white_2 tx ty x y ht d ws =
        ws.set k ⟨x, y, ht, d, (ws.getD k noWhite).hasj⟩ := by
  intro ws
  induction ws with
  | nil => intro k hk; simp at hk
  | cons w r ih =>
    intro k hk hmatch hbefore
    cases k with
    | zero =>
      simp only [List.getD_cons_zero] at hmatch ⊢
      simp only [replace_white_2, if_pos hmatch, List.set_cons_zero]
    | succ k =>
      have hw : ¬(w.y = ty ∧ w.x = tx ∧ w.ht < ht) := by
        have := hbefore 0 (Nat.succ_pos k)
        simpa using this
      simp only [replace_white_2, if_neg hw, List.getD_cons_succ,
        List.set_cons_succ] at *
      rw [ih k (by simpa using hk) hmatch
        (fun k' hk' => by
          have := hbefore (k' + 1) (by omega)
          simpa using this)]

/-- C3 (amended): a corrective-patch insertion routed through
replace_white_2 replaces the first already-recorded piece that has exactly
the target coordinates and a strictly smaller height; when no such piece
exists the piece list is left unchanged (the new piece is discarded, not
appended). -/
theorem replace_white_2_spec (tx ty x y ht : Int) (d : List Nat)
    (ws : List whiterec) :
    ((∀ w ∈ ws, ¬(w.y = ty ∧ w.x = tx ∧ w.ht < ht)) →
        replace_white_2 tx ty x y ht d ws = ws) ∧
    (∀ k, k < ws.length →
      ((ws.getD k noWhite).y = ty ∧ (ws.getD k noWhite).x = tx ∧
        (ws.getD k noWhite).ht < ht) →
      (∀ k', k' < k → ¬((ws.getD k' noWhite).y = ty ∧
        (ws.getD k' noWhite).x = tx ∧ (ws.getD k' noWhite).ht < ht)) →
      replace_white_2 tx ty x y ht d ws =
        ws.set k ⟨x, y, ht, d, (ws.getD k noWhite).hasj⟩) :=
  ⟨replace_white_2_nomatch tx ty x y ht d ws,
   fun k => replace_white_2_first tx ty x y ht d ws k⟩

def cexPieces : List whiterec := [⟨0, 0, 6, sbot, false⟩]

/-- C3 (counterexample): replace_white_2 invoked with target (100,50) on a
piece list holding no piece at that target leaves the list unchanged; it
does not append the new piece as the claim states. -/
theorem c3_counterexample :
    replace_white_2 100 50 100 44 6 npatchData cexPieces = cexPieces ∧
    cexPieces ≠ cexPieces ++ [⟨100, 44, 6, npatchData, false⟩] := by decide

/-- C3 (witness): the amended theorem applied to a one-piece list whose
entry matches the target with smaller height: the piece is replaced. -/
theorem c3_witness :
    replace_white_2 100 50 100 44 6 npatchData
        [⟨100, 50, 3, nepatchData, false⟩] =
      [⟨100, 44, 6, npatchData, false⟩] := by
  have h := (replace_white_2_spec 100 50 100 44 6 npatchData
      [⟨100, 50, 3, nepatchData, false⟩]).2 0 (by decide) (by decide)
      (fun k' hk' => absurd hk' (by omega))
  exact h.trans (by decide)

/-! ## WhiteMerger: the sort and the duplicate-merge loop of init_whites -/

/-- The order the insertion sort of init_whites establishes: ascending x,
ties broken by ascending y. -/
def wLexLe (a b : whiterec) : Prop := a.x < b.x ∨ (a.x = b.x ∧ a.y ≤ b.y)

instance (a b : whiterec) : Decidable (wLexLe a b) := by
  unfold wLexLe; infer_instance

/-- One step of the insertion sort of init_whites: the element moves left
exactly past the entries it is lexicographically strictly smaller than. -/
def insertWhite (w : whiterec) : List whiterec → List whiterec
  | [] => [w]
  | a :: r =>
    if w.x < a.x ∨ (w.x = a.x ∧ w.y < a.y) then w :: a :: r
    else a :: insertWhite w r

def sortWhites (ws : List whiterec) : List whiterec :=
  ws.foldl (fun acc w => insertWhite w acc) []

/-- The merge condition of the duplicate-merge loop: two consecutive pieces
at the same coordinates, both of height 6. -/
def sameSpot6 (a b : whiterec) : Prop :=
  a.x = b.x ∧ a.y = b.y ∧ a.ht = 6 ∧ b.ht = 6

instance (a b : whiterec) : Decidable (sameSpot6 a b) := by
  unfold sameSpot6; infer_instance

/-- Row-wise bitwise AND of two 6-row bitmaps: the merged pattern the loop
writes into fresh storage (newdata[i] = wh->data[i] & (wh+1)->data[i]). -/
def mergeRows (a b : List Nat) : List Nat :=
  [a.getD 0 0 &&& b.getD 0 0, a.getD 1 0 &&& b.getD 1 0,
   a.getD 2 0 &&& b.getD 2 0, a.getD 3 0 &&& b.getD 3 0,
   a.getD 4 0 &&& b.getD 4 0, a.getD 5 0 &&& b.getD 5 0]

/-- The inner while loop at one position: keep absorbing the next piece as
long as it shares the coordinates and both heights are 6. -/
def mergeAbsorb : whiterec → List whiterec → whiterec × List whiterec
  | a, [] => (a, [])
  | a, b :: r =>
    if sameSpot6 a b then
      mergeAbsorb ⟨a.x, a.y, a.ht, mergeRows a.data b.data, a.hasj⟩ r
    else (a, b :: r)

/-- Fuel-indexed outer loop of the duplicate merge (fuel bounds the number
of positions; the list length is always enough fuel). -/
def mergeLoopF : Nat → List whiterec → List whiterec
  | 0, ws => ws
  | _ + 1, [] => []
  | f + 1, a :: r => (mergeAbsorb a r).1 :: mergeLoopF f (mergeAbsorb a r).2

/-- The duplicate-merge loop of init_whites. -/
def mergeWhites (ws : List whiterec) : List whiterec := mergeLoopF ws.length ws

theorem mergeAbsorb_snd_length :
    ∀ (r : List whiterec) (a : whiterec),
      (mergeAbsorb a r).2.length ≤ r.length := by
  intro r
  induction r with
  | nil => intro a; simp [mergeAbsorb]
  | cons b r ih =>
    intro a
    simp only [mergeAbsorb]
    by_cases h : sameSpot6 a b
    · rw [if_pos h]
      exact le_trans (ih _) (by simp)
    · rw [if_neg h]

theorem mergeLoopF_congr :
    ∀ (f g : Nat) (ws : List whiterec), ws.length ≤ f → ws.length ≤ g →
      mergeLoopF f ws = mergeLoopF g ws := by
  intro f
  induction f with
  | zero =>
    intro g ws hf _
    have : ws = [] := List.length_eq_zero.mp (Nat.le_zero.mp hf)
    subst this
    cases g <;> rfl
  | succ f ih =>
    intro g ws hf hg
    cases ws with
    | nil => cases g <;> rfl
    | cons a r =>
      cases g with
      | zero => simp at hg
      | succ g =>
        simp only [mergeLoopF]
        have hlen := mergeAbsorb_snd_length r a
        simp only [List.length_cons] at hf hg
        rw [ih g (mergeAbsorb a r).2 (by omega) (by omega)]

theorem mergeWhites_cons (a : whiterec) (r : List whiterec) :
    mergeWhites (a :: r) =
      (mergeAbsorb a r).1 :: mergeWhites (mergeAbsorb a r).2 := by
  show mergeLoopF (r.length + 1) (a :: r) = _
  simp only [mergeLoopF]
  rw [mergeLoopF_congr r.length (mergeAbsorb a r).2.length (mergeAbsorb a r).2
    (mergeAbsorb_snd_length r a) (le_refl _)]
  rfl

theorem mergeAbsorb_fst_fields :
    ∀ (r : List whiterec) (a : whiterec),
      (mergeAbsorb a r).1.x = a.x ∧ (mergeAbsorb a r).1.y = a.y ∧
      (mergeAbsorb a r).1.ht = a.ht ∧ (mergeAbsorb a r).1.hasj = a.hasj := by
  intro r
  induction r with
  | nil => intro a; simp [mergeAbsorb]
  | cons b r ih =>
    intro a
    simp only [mergeAbsorb]
    by_cases h : sameSpot6 a b
    · rw [if_pos h]
      exact ih _
    · rw [if_neg h]
      exact ⟨rfl, rfl, rfl, rfl⟩

theorem mergeAbsorb_head :
    ∀ (r : List whiterec) (a : whiterec),
      ∀ b ∈ (mergeAbsorb a r).2.head?, ¬sameSpot6 (mergeAbsorb a r).1 b := by
  intro r
  induction r with
  | nil => intro a b hb; simp [mergeAbsorb] at hb
  | cons c r ih =>
    intro a b hb
    simp only [mergeAbsorb] at hb ⊢
    by_cases h : sameSpot6 a c
    · rw [if_pos h] at hb ⊢
      exact ih _ b hb
    · rw [if_neg h] at hb ⊢
      simp only [List.head?_cons, Option.mem_def, Option.some.injEq] at hb
      subst hb
      exact h

/-- No two consecutive pieces share the coordinates with both heights 6:
the configuration the merge loop eliminates. -/
def noConsecDup (ws : List whiterec) : Prop :=
  List.Chain' (fun a b => ¬sameSpot6 a b) ws

instance (ws : List whiterec) : Decidable (noConsecDup ws) := by
  unfold noConsecDup; infer_instance

theorem sameSpot6_congr {a a' b b' : whiterec}
    (hx : a.x = a'.x) (hy : a.y = a'.y) (hh : a.ht = a'.ht)
    (hx2 : b.x = b'.x) (hy2 : b.y = b'.y) (hh2 : b.ht = b'.ht) :
    sameSpot6 a b ↔ sameSpot6 a' b' := by
  unfold sameSpot6
  rw [hx, hy, hh, hx2, hy2, hh2]

theorem mergeWhites_noConsecDup_aux :
    ∀ (n : Nat) (ws : List whiterec), ws.length ≤ n →
      noConsecDup (mergeWhites ws) := by
  intro n
  induction n with
  | zero =>
    intro ws h
    have : ws = [] := List.length_eq_zero.mp (Nat.le_zero.mp h)
    subst this
    exact List.chain'_nil
  | succ n ih =>
    intro ws h
    cases ws with
    | nil => exact List.chain'_nil
    | cons a r =>
      rw [mergeWhites_cons]
      unfold noConsecDup
      rw [List.chain'_cons']
      have hlen := mergeAbsorb_snd_length r a
      simp only [List.length_cons] at h
      refine ⟨?_, ih _ (by omega)⟩
      intro y hy
      cases hsnd : (mergeAbsorb a r).2 with
      | nil =>
        rw [hsnd] at hy
        simp [mergeWhites, mergeLoopF] at hy
      | cons c r2 =>
        rw [hsnd] at hy
        rw [mergeWhites_cons] at hy
        simp only [List.head?_cons, Option.mem_def, Option.some.injEq] at hy
        subst hy
        have hc := mergeAbsorb_head r a
        rw [hsnd] at hc
        have hc2 := hc c (by simp)
        have hf := mergeAbsorb_fst_fields r2 c
        rw [sameSpot6_congr (rfl) (rfl) (rfl) hf.1 hf.2.1 hf.2.2.1]
        exact hc2

theorem mergeWhites_of_noConsecDup_aux :
    ∀ (n : Nat) (ws : List whiterec), ws.length ≤ n → noConsecDup ws →
      mergeWhites ws = ws := by
  intro n
  induction n with
  | zero =>
    intro ws h _
    have : ws = [] := List.length_eq_zero.mp (Nat.le_zero.mp h)
    subst this; rfl
  | succ n ih =>
    intro ws h hc
    cases ws with
    | nil => rfl
    | cons a r =>
      rw [mergeWhites_cons]
      cases r with
      | nil => simp [mergeAbsorb, mergeWhites, mergeLoopF]
      | cons b r2 =>
        have hab : ¬sameSpot6 a b := (List.chain'_cons.mp hc).1
        have habs : mergeAbsorb a (b :: r2) = (a, b :: r2) := by
          simp [mergeAbsorb, if_neg hab]
        rw [habs]
        simp only [List.length_cons] at h
        rw [ih (b :: r2) (by simp; omega) (List.chain'_cons.mp hc).2]

/-- C7: the duplicate-merge step of init_whites is idempotent.  On a sorted
piece list (any list, in fact) its output has no two consecutive pieces with
equal coordinates and both heights 6, so running it again changes nothing
and removes no further pieces. -/
theorem merge_pass_idempotent (ws : List whiterec)
    (_hs : ws.Pairwise wLexLe) :
    noConsecDup (mergeWhites ws) ∧
      mergeWhites (mergeWhites ws) = mergeWhites ws :=
  ⟨mergeWhites_noConsecDup_aux ws.length ws (le_refl _),
   mergeWhites_of_noConsecDup_aux (mergeWhites ws).length (mergeWhites ws)
     (le_refl _) (mergeWhites_noConsecDup_aux ws.length ws (le_refl _))⟩

/-- C7 (witness): the theorem applied to a concrete sorted two-piece list
whose entries merge into one. -/
theorem c7_witness :
    noConsecDup (mergeWhites [⟨0, 0, 6, generictop, false⟩,
        ⟨0, 0, 6, sbot, false⟩]) ∧
      mergeWhites (mergeWhites [⟨0, 0, 6, generictop, false⟩,
        ⟨0, 0, 6, sbot, false⟩]) =
        mergeWhites [⟨0, 0, 6, generictop, false⟩, ⟨0, 0, 6, sbot, false⟩] :=
  merge_pass_idempotent _ (by decide)

theorem land_absorb_left (u v : Nat) :
    (u &&& v) &&& u = u &&& v := by
  apply Nat.eq_of_testBit_eq
  intro i
  simp only [Nat.testBit_land]
  cases u.testBit i <;> cases v.testBit i <;> rfl

theorem land_absorb_right (u v : Nat) :
    (u &&& v) &&& v = u &&& v := by
  apply Nat.eq_of_testBit_eq
  intro i
  simp only [Nat.testBit_land]
  cases u.testBit i <;> cases v.testBit i <;> rfl

/-- C6: whenever the merge loop combines two consecutive height-6 pieces at
identical coordinates, the combined bitmap is the row-wise bitwise AND of
the two input bitmaps, hence a bitwise subset of each input row. -/
theorem merge_rows_are_and (a b : whiterec) (r : List whiterec)
    (h : sameSpot6 a b) :
    mergeAbsorb a (b :: r) =
      mergeAbsorb ⟨a.x, a.y, a.ht, mergeRows a.data b.data, a.hasj⟩ r ∧
    ∀ i, i < 6 →
      (mergeRows a.data b.data).getD i 0 =
        (a.data.getD i 0 &&& b.data.getD i 0) ∧
      ((mergeRows a.data b.data).getD i 0 &&& a.data.getD i 0) =
        (mergeRows a.data b.data).getD i 0 ∧
      ((mergeRows a.data b.data).getD i 0 &&& b.data.getD i 0) =
        (mergeRows a.data b.data).getD i 0 := by
  constructor
  · simp [mergeAbsorb, if_pos h]
  · intro i hi
    interval_cases i <;>
      exact ⟨rfl, land_absorb_left _ _, land_absorb_right _ _⟩

/-- C6 (witness): the theorem applied to two concrete height-6 pieces at the
same coordinates; the first merged row absorbs into the first input row. -/
theorem c6_witness :
    ((mergeRows generictop sbot).getD 0 0 &&& generictop.getD 0 0) =
      (mergeRows generictop sbot).getD 0 0 :=
  ((merge_rows_are_and ⟨0, 0, 6, generictop, false⟩ ⟨0, 0, 6, sbot, false⟩ []
      (by decide)).2 0 (by decide)).2.1

/-! ## WhitePieceBuilder: norm_whites -/

/-- The white pieces norm_whites emits for one wall: the (up to two)
baseline endpoint pieces from the whitepicts table, then the hand-authored
glitch-fix pieces for the NE, ENE and ESE directions. -/
def wallWhites (l : linerec) : List whiterec :=
  (match (whitepicts l.newtype).1 with
   | some d => [⟨l.startx, l.starty, 6, d, false⟩]
   | none => []) ++
  (match (whitepicts l.newtype).2 with
   | some d => [⟨l.endx, l.endy, 6, d, false⟩]
   | none => []) ++
  (if l.newtype = 7 then [⟨l.endx - 4, l.endy + 2, 4, neglitch, false⟩]
   else if l.newtype = 6 then
     [⟨l.startx + 16, l.starty, 3, eneglitch1, false⟩,
      ⟨l.endx - 10, l.endy + 1, 5, eneglitch2, false⟩]
   else if l.newtype = 4 then [⟨l.endx - 7, l.endy - 2, 4, eseglitch, false⟩]
   else [])

/-- norm_whites: the pieces of all walls, appended in wall-list order. -/
def norm_whites (ls : List linerec) : List whiterec :=
  ls.foldr (fun l acc => wallWhites l ++ acc) []

/-! ## JunctionPatcher: close_whites and one_close -/

/-- One invocation one_close(line, line2, n, m), by wall indices. -/
structure wallCall where
  a : Nat
  b : Nat
  n : Bool
  m : Bool
deriving DecidableEq, Repr

/-- The mutable state close_whites works on: the wall array (h1/h2 get
narrowed) and the white piece list (patches get added or replaced). -/
structure CState where
  walls : List linerec
  whites : List whiterec
deriving DecidableEq, Repr

/-- The primitive effects a direction-pair rule may perform, per the spec:
narrow h1 or h2 of one of the two walls of the call, append a piece, or
route a piece through the replace entry point. -/
inductive closeOp where
  | setH1 (second : Bool) (v : Int)
  | setH2 (second : Bool) (v : Int)
  | addW (x y ht : Int) (d : List Nat)
  | replW (tx ty x y ht : Int) (d : List Nat)
deriving DecidableEq, Repr

def applyOp (c : wallCall) (s : CState) : closeOp → CState
  | .setH1 second v =>
    let i := if second then c.b else c.a
    ⟨s.walls.set i { s.walls.getD i noWall with h1 := v }, s.whites⟩
  | .setH2 second v =>
    let i := if second then c.b else c.a
    ⟨s.walls.set i { s.walls.getD i noWall with h2 := v }, s.whites⟩
  | .addW x y ht d => ⟨s.walls, add_white x y ht d s.whites⟩
  | .replW tx ty x y ht d => ⟨s.walls, replace_white_2 tx ty x y ht d s.whites⟩

/-- Modelled from the spec: the direction-pair cases of one_close with
dir1 between 6 and 15 are elided in the annotated source (behind the
comment that the remaining directions continue similarly), so their rules
are kept as an explicit parameter.  The spec constrains every rule to
insert corrective pieces through the add/replace entry points and to narrow
the h1/h2 bounds of the two walls of the call, which is exactly what a list
of closeOp effects can express. -/
def ElidedRules : Type :=
  Int → Int → wallCall → CState → List closeOp

/-- The trivial instantiation of the elided rules (no effect). -/
def noElided : ElidedRules := fun _ _ _ _ => []

/-- Direction of a wall as seen from one of its endpoints: the
"9 - newtype" conversion of the source, flipped by 8 (mod 16) when the far
endpoint is the one at the junction. -/
def dirOf (nt : Int) (flip : Bool) : Int :=
  if flip then (9 - nt + 8) % 16 else 9 - nt

/-- The patch offset table of one_close case 0 (a South wall at its far
end), per second direction. -/
def case0Offset (dir2 : Int) : Option Int :=
  if dir2 = 15 ∨ dir2 = 1 then some 21
  else if dir2 = 2 then some 10
  else if dir2 = 3 ∨ dir2 = 14 then some 6 else none

/-- The staircase length table of one_close case 2, per second direction. -/
def case2Count (dir2 : Int) : Option Nat :=
  if dir2 = 0 then some 3 else if dir2 = 1 then some 6
  else if dir2 = 3 then some 4 else if dir2 = 14 then some 1
  else if dir2 = 15 then some 2 else none

/-- Case 0 of one_close: bail out when the wall is already narrowed past
the patch, otherwise add (or, when h2 was already narrowed, replace) the
npatch piece i pixels back from the far endpoint, and set h2 to
length - i. -/
def oneClose0 (c : wallCall) (s : CState) (i : Int) : CState :=
  let line := s.walls.getD c.a noWall
  if line.length - i > line.h2 then s
  else
    ⟨s.walls.set c.a { line with h2 := line.length - i },
     if line.h2 < line.length
       then replace_white_2 line.startx (line.starty + line.h2)
              line.endx (line.endy - i) i npatchData s.whites
       else add_white line.endx (line.endy - i) i npatchData s.whites⟩

/-- Case 2 of one_close: a staircase of up to i nepatch pieces stepping
diagonally away from the junction, each guarded by the current h1, then h1
raised to 5 + 4*(i-1) when smaller. -/
def oneClose2 (c : wallCall) (s : CState) (i : Nat) : CState :=
  let line := s.walls.getD c.a noWall
  ⟨if line.h1 < 5 + 4 * ((i : Int) - 1)
     then s.walls.set c.a { line with h1 := 5 + 4 * ((i : Int) - 1) }
     else s.walls,
   (List.range i).foldl (fun ws k =>
      if line.h1 < 5 + 4 * (k : Int)
      then add_white (line.startx + 3 + 4 * (k : Int))
             (line.starty - 4 - 4 * (k : Int)) 4 nepatchData ws
      else ws) s.whites⟩

/-- one_close: direction-pair patch rules.  Cases 0, 1, 2 and the no-op
cases 3, 4, 5 are taken verbatim from the source (direction conversion by
dirOf, early return for equal directions); the elided cases 6..15 dispatch
to the rule parameter. -/
def one_close (e : ElidedRules) (c : wallCall) (s : CState) : CState :=
  let dir1 := dirOf (s.walls.getD c.a noWall).newtype c.n
  let dir2 := dirOf (s.walls.getD c.b noWall).newtype c.m
  if dir1 = dir2 then s
  else if dir1 = 0 then
    match case0Offset dir2 with
    | none => s
    | some i => oneClose0 c s i
  else if dir1 = 1 then s
  else if dir1 = 2 then
    match case2Count dir2 with
    | none => s
    | some i => oneClose2 c s i
  else if dir1 = 3 ∨ dir1 = 4 ∨ dir1 = 5 then s
  else if 6 ≤ dir1 ∧ dir1 ≤ 15 then (e dir1 dir2 c s).foldl (applyOp c) s
  else s

/-- Advance of the moving first pointer: skip walls whose right end is more
than 3 pixels left of the current wall's start. -/
def advanceFirstGo (sx : Int) : List linerec → Nat → Nat
  | [], f => f
  | l :: r, f => if l.endx < sx - 3 then advanceFirstGo sx r (f + 1) else f

def advanceFirst (ls : List linerec) (sx : Int) (f : Nat) : Nat :=
  advanceFirstGo sx (ls.drop f) f

/-- The two candidate calls for one candidate wall: endpoint j = start,
then j = end, each guarded by the 6-by-6 box test of the source
(x2 = endpoint - 3; emit when x2 < x1 < x2+6 and y2 < y1 < y2+6). -/
def pairCalls (a b : Nat) (i : Bool) (x1 y1 : Int) (l2 : linerec) :
    List wallCall :=
  (if x1 > epx l2 false - 3 ∧ y1 > epy l2 false - 3 ∧
      x1 < epx l2 false + 3 ∧ y1 < epy l2 false + 3
   then [⟨a, b, i, false⟩] else []) ++
  (if x1 > epx l2 true - 3 ∧ y1 > epy l2 true - 3 ∧
      x1 < epx l2 true + 3 ∧ y1 < epy l2 true + 3
   then [⟨a, b, i, true⟩] else [])

/-- The inner candidate loop: walk from the first pointer while the
candidate's startx is less than x1 + 3. -/
def candScanGo (a : Nat) (i : Bool) (x1 y1 : Int) :
    List linerec → Nat → List wallCall
  | [], _ => []
  | l2 :: r, b =>
    if l2.startx < x1 + 3 then
      pairCalls a b i x1 y1 l2 ++ candScanGo a i x1 y1 r (b + 1)
    else []

def endpointCalls (ls : List linerec) (a : Nat) (i : Bool) (f : Nat) :
    List wallCall :=
  candScanGo a i (epx (ls.getD a noWall) i) (epy (ls.getD a noWall) i)
    (ls.drop f) f

/-- The outer sweep of close_whites, producing the one_close invocations in
program order; the first pointer persists across walls. -/
def ccGo (ls : List linerec) : List linerec → Nat → Nat → List wallCall
  | [], _, _ => []
  | l :: rest, a, f =>
    let f2 := advanceFirst ls l.startx f
    (endpointCalls ls a false f2 ++ endpointCalls ls a true f2) ++
      ccGo ls rest (a + 1) f2

def closeCalls (ls : List linerec) : List wallCall := ccGo ls ls 0 0

/-- The h1/h2 defaults close_whites assigns before the sweep. -/
def setDefaults (l : linerec) : linerec :=
  { l with h1 := simpleh1 l.newtype, h2 := l.length + simpleh2 l.newtype }

/-- close_whites: assign the defaults, then run the sweep.  The calls are
determined by the wall coordinates alone (one_close never moves a wall),
so folding one_close over the call list in program order is the loop of
the source. -/
def close_whites (e : ElidedRules) (ls : List linerec) (ws : List whiterec) :
    CState :=
  (closeCalls (ls.map setDefaults)).foldl (fun s c => one_close e c s)
    ⟨ls.map setDefaults, ws⟩

/-- C2: the direction-pair rule for a South wall whose far end meets the far
end of a Southeast wall at a shared point.  With h2 still at its default
(length), case 0 of one_close with dir2 = 14 selects offset i = 6, appends a
height-6 npatch piece 6 pixels above the South wall's far endpoint, and sets
the South wall's h2 to length - 6. -/
theorem south_meets_southeast (e : ElidedRules) (w1 w2 : linerec)
    (ws : List whiterec)
    (ht1 : w1.newtype = 1) (ht2 : w2.newtype = 3)
    (hdef : w1.h2 = w1.length)
    (_hshx : w1.endx = w2.endx) (_hshy : w1.endy = w2.endy) :
    one_close e ⟨0, 1, true, true⟩ ⟨[w1, w2], ws⟩ =
      ⟨[{ w1 with h2 := w1.length - 6 }, w2],
        ws ++ [⟨w1.endx, w1.endy - 6, 6, npatchData, false⟩]⟩ := by
  unfold one_close
  dsimp only
  rw [show ([w1, w2].getD 0 noWall) = w1 from rfl,
    show ([w1, w2].getD 1 noWall) = w2 from rfl, ht1, ht2]
  rw [if_neg (by decide), if_pos (by decide),
    show case0Offset (dirOf 3 true) = some 6 from by decide]
  unfold oneClose0
  dsimp only
  rw [show ([w1, w2].getD 0 noWall) = w1 from rfl]
  rw [if_neg (by rw [hdef]; omega), if_neg (by rw [hdef]; omega)]
  simp [add_white, ht1]

def c2WallS : linerec := ⟨100, 30, 100, 50, 20, 1, 6, 20⟩

def c2WallSE : linerec := ⟨80, 30, 100, 50, 20, 3, 6, 20⟩

/-- C2 (witness): the rule applied to concrete S and SE walls sharing the
endpoint (100, 50): the npatch piece lands at (100, 44) with height 6 and
the South wall's h2 becomes 20 - 6 = 14. -/
theorem c2_witness :
    one_close noElided ⟨0, 1, true, true⟩ ⟨[c2WallS, c2WallSE], []⟩ =
      ⟨[⟨100, 30, 100, 50, 20, 1, 6, 14⟩, c2WallSE],
        [⟨100, 44, 6, npatchData, false⟩]⟩ := by
  have h := south_meets_southeast noElided c2WallS c2WallSE []
    (by decide) (by decide) (by decide) (by decide) (by decide)
  exact h.trans (by decide)

/-! ## Facts about close_whites used for isolated walls -/

theorem getD_set_ne {α : Type _} (l : List α) (i k : Nat) (v d : α)
    (h : k ≠ i) : (l.set i v).getD k d = l.getD k d := by
  rw [List.getD_eq_getElem?_getD, List.getD_eq_getElem?_getD,
    List.getElem?_set_ne (Ne.symm h)]

theorem getD_map_setDefaults (ls : List linerec) (k : Nat) (hk : k < ls.length) :
    (ls.map setDefaults).getD k noWall = setDefaults (ls.getD k noWall) := by
  rw [List.getD_eq_getElem?_getD, List.getD_eq_getElem?_getD, List.getElem?_map]
  rw [List.getElem?_eq_getElem hk]
  simp

theorem epx_setDefaults (l : linerec) (i : Bool) : epx (setDefaults l) i = epx l i := by
  cases i <;> rfl

theorem epy_setDefaults (l : linerec) (i : Bool) : epy (setDefaults l) i = epy l i := by
  cases i <;> rfl

theorem applyOp_walls_other (c : wallCall) (op : closeOp) (s : CState)
    (k : Nat) (h1 : k ≠ c.a) (h2 : k ≠ c.b) :
    (applyOp c s op).walls.getD k noWall = s.walls.getD k noWall := by
  cases op with
  | setH1 second v =>
    cases second
    · exact getD_set_ne _ _ _ _ _ h1
    · exact getD_set_ne _ _ _ _ _ h2
  | setH2 second v =>
    cases second
    · exact getD_set_ne _ _ _ _ _ h1
    · exact getD_set_ne _ _ _ _ _ h2
  | addW x y ht d => rfl
  | replW tx ty x y ht d => rfl

theorem foldl_applyOp_walls_other (c : wallCall) (k : Nat)
    (h1 : k ≠ c.a) (h2 : k ≠ c.b) :
    ∀ (ops : List closeOp) (s : CState),
      ((ops.foldl (applyOp c) s).walls.getD k noWall) =
        s.walls.getD k noWall := by
  intro ops
  induction ops with
  | nil => intro s; rfl
  | cons op r ih =>
    intro s
    rw [List.foldl_cons, ih, applyOp_walls_other c op s k h1 h2]

theorem oneClose0_walls_other (c : wallCall) (s : CState) (i : Int)
    (k : Nat) (h1 : k ≠ c.a) :
    (oneClose0 c s i).walls.getD k noWall = s.walls.getD k noWall := by
  unfold oneClose0
  dsimp only
  split
  · rfl
  · exact getD_set_ne _ _ _ _ _ h1

theorem oneClose2_walls_other (c : wallCall) (s : CState) (i : Nat)
    (k : Nat) (h1 : k ≠ c.a) :
    (oneClose2 c s i).walls.getD k noWall = s.walls.getD k noWall := by
  unfold oneClose2
  dsimp only
  split
  · exact getD_set_ne _ _ _ _ _ h1
  · rfl

theorem one_close_walls_other (e : ElidedRules) (c : wallCall) (s : CState)
    (k : Nat) (h1 : k ≠ c.a) (h2 : k ≠ c.b) :
    (one_close e c s).walls.getD k noWall = s.walls.getD k noWall := by
  unfold one_close
  dsimp only
  split
  · rfl
  split
  · split
    · rfl
    · exact oneClose0_walls_other c s _ k h1
  split
  · rfl
  split
  · split
    · rfl
    · exact oneClose2_walls_other c s _ k h1
  split
  · rfl
  split
  · exact foldl_applyOp_walls_other c k h1 h2 _ s
  · rfl

theorem one_close_self (e : ElidedRules) (c : wallCall)
    (hab : c.a = c.b) (hnm : c.n = c.m) (s : CState) :
    one_close e c s = s := by
  unfold one_close
  dsimp only
  rw [hab, hnm]
  rw [if_pos rfl]

theorem pairCalls_mem (a b : Nat) (i : Bool) (x1 y1 : Int) (l2 : linerec) :
    ∀ c ∈ pairCalls a b i x1 y1 l2,
      c.a = a ∧ c.b = b ∧ c.n = i ∧
      x1 > epx l2 c.m - 3 ∧ y1 > epy l2 c.m - 3 ∧
      x1 < epx l2 c.m + 3 ∧ y1 < epy l2 c.m + 3 := by
  intro c hc
  unfold pairCalls at hc
  rcases List.mem_append.mp hc with h | h
  · by_cases hcond : (x1 > epx l2 false - 3 ∧ y1 > epy l2 false - 3 ∧
        x1 < epx l2 false + 3 ∧ y1 < epy l2 false + 3)
    · rw [if_pos hcond] at h
      have hceq : c = ⟨a, b, i, false⟩ := by simpa using h
      subst hceq
      exact ⟨rfl, rfl, rfl, hcond.1, hcond.2.1, hcond.2.2.1, hcond.2.2.2⟩
    · rw [if_neg hcond] at h
      simp at h
  · by_cases hcond : (x1 > epx l2 true - 3 ∧ y1 > epy l2 true - 3 ∧
        x1 < epx l2 true + 3 ∧ y1 < epy l2 true + 3)
    · rw [if_pos hcond] at h
      have hceq : c = ⟨a, b, i, true⟩ := by simpa using h
      subst hceq
      exact ⟨rfl, rfl, rfl, hcond.1, hcond.2.1, hcond.2.2.1, hcond.2.2.2⟩
    · rw [if_neg hcond] at h
      simp at h

theorem candScanGo_mem (ls : List linerec) (a : Nat) (i : Bool) (x1 y1 : Int) :
    ∀ (rest : List linerec) (b : Nat), rest = ls.drop b →
      ∀ c ∈ candScanGo a i x1 y1 rest b,
        c.a = a ∧ c.n = i ∧ c.b < ls.length ∧
        x1 > epx (ls.getD c.b noWall) c.m - 3 ∧
        y1 > epy (ls.getD c.b noWall) c.m - 3 ∧
        x1 < epx (ls.getD c.b noWall) c.m + 3 ∧
        y1 < epy (ls.getD c.b noWall) c.m + 3 := by
  intro rest
  induction rest with
  | nil => intro b _ c hc; simp [candScanGo] at hc
  | cons l2 r ih =>
    intro b hrest c hc
    have hbsome : ls[b]? = some l2 := by
      have h0 := List.getElem?_drop ls b 0
      rw [← hrest] at h0
      simpa using h0.symm
    have hblt : b < ls.length := (List.getElem?_eq_some.mp hbsome).1
    have hbgetD : ls.getD b noWall = l2 := by
      rw [List.getD_eq_getElem?_getD, hbsome]; rfl
    have hdrop : r = ls.drop (b + 1) := by
      have h1 := List.drop_drop 1 b ls
      rw [← hrest] at h1
      simpa using h1
    unfold candScanGo at hc
    by_cases hcond : l2.startx < x1 + 3
    · rw [if_pos hcond] at hc
      rcases List.mem_append.mp hc with h | h
      · obtain ⟨ha, hb, hn, h4, h5, h6, h7⟩ := pairCalls_mem a b i x1 y1 l2 c h
        refine ⟨ha, hn, ?_, ?_, ?_, ?_, ?_⟩ <;> rw [hb]
        · exact hblt
        · rw [hbgetD]; exact h4
        · rw [hbgetD]; exact h5
        · rw [hbgetD]; exact h6
        · rw [hbgetD]; exact h7
      · exact ih (b + 1) hdrop c h
    · rw [if_neg hcond] at hc
      simp at hc

theorem ccGo_mem (ls : List linerec) :
    ∀ (rest : List linerec) (a f : Nat), rest = ls.drop a →
      ∀ c ∈ ccGo ls rest a f,
        c.a < ls.length ∧ c.b < ls.length ∧
        epx (ls.getD c.a noWall) c.n > epx (ls.getD c.b noWall) c.m - 3 ∧
        epy (ls.getD c.a noWall) c.n > epy (ls.getD c.b noWall) c.m - 3 ∧
        epx (ls.getD c.a noWall) c.n < epx (ls.getD c.b noWall) c.m + 3 ∧
        epy (ls.getD c.a noWall) c.n < epy (ls.getD c.b noWall) c.m + 3 := by
  intro rest
  induction rest with
  | nil => intro a f _ c hc; simp [ccGo] at hc
  | cons l rest2 ih =>
    intro a f hrest c hc
    have hasome : ls[a]? = some l := by
      have h0 := List.getElem?_drop ls a 0
      rw [← hrest] at h0
      simpa using h0.symm
    have halt : a < ls.length := (List.getElem?_eq_some.mp hasome).1
    have hdrop : rest2 = ls.drop (a + 1) := by
      have h1 := List.drop_drop 1 a ls
      rw [← hrest] at h1
      simpa using h1
    unfold ccGo at hc
    rcases List.mem_append.mp hc with h | h
    · rcases List.mem_append.mp h with h2 | h2
      · obtain ⟨ha, hn, hb, h4, h5, h6, h7⟩ :=
          candScanGo_mem ls a false (epx (ls.getD a noWall) false)
            (epy (ls.getD a noWall) false) (ls.drop (advanceFirst ls l.startx f))
            (advanceFirst ls l.startx f) rfl c h2
        rw [← ha, ← hn] at h4 h5 h6 h7
        exact ⟨ha ▸ halt, hb, h4, h5, h6, h7⟩
      · obtain ⟨ha, hn, hb, h4, h5, h6, h7⟩ :=
          candScanGo_mem ls a true (epx (ls.getD a noWall) true)
            (epy (ls.getD a noWall) true) (ls.drop (advanceFirst ls l.startx f))
            (advanceFirst ls l.startx f) rfl c h2
        rw [← ha, ← hn] at h4 h5 h6 h7
        exact ⟨ha ▸ halt, hb, h4, h5, h6, h7⟩
    · exact ih (a + 1) (advanceFirst ls l.startx f) hdrop c h

theorem closeCalls_mem (ls : List linerec) :
    ∀ c ∈ closeCalls ls,
      c.a < ls.length ∧ c.b < ls.length ∧
      epx (ls.getD c.a noWall) c.n > epx (ls.getD c.b noWall) c.m - 3 ∧
      epy (ls.getD c.a noWall) c.n > epy (ls.getD c.b noWall) c.m - 3 ∧
      epx (ls.getD c.a noWall) c.n < epx (ls.getD c.b noWall) c.m + 3 ∧
      epy (ls.getD c.a noWall) c.n < epy (ls.getD c.b noWall) c.m + 3 :=
  ccGo_mem ls ls 0 0 rfl

theorem foldl_one_close_preserve (e : ElidedRules) (iw : Nat) :
    ∀ calls : List wallCall,
      (∀ c ∈ calls, (c.a = iw ∨ c.b = iw) → ∀ s, one_close e c s = s) →
      ∀ s : CState,
        ((calls.foldl (fun s c => one_close e c s) s).walls.getD iw noWall) =
          s.walls.getD iw noWall := by
  intro calls
  induction calls with
  | nil => intro _ s; rfl
  | cons c r ih =>
    intro h s
    rw [List.foldl_cons]
    by_cases hc : c.a = iw ∨ c.b = iw
    · rw [h c (List.mem_cons_self c r) hc s]
      exact ih (fun c' hc' => h c' (List.mem_cons_of_mem c hc')) s
    · push_neg at hc
      rw [ih (fun c' hc' => h c' (List.mem_cons_of_mem c hc')) _]
      exact one_close_walls_other e c s iw (Ne.symm hc.1) (Ne.symm hc.2)

/-- C8 (amended): a wall of a direction with two baseline patterns and no
glitch pieces (S, SSE, SE, E, NNE), no other wall endpoint within 6 pixels
of either of its endpoints, and its own endpoints more than 2 pixels apart
on some axis (the elided direction-pair rules would otherwise apply to
walls whose two ends meet), receives from norm_whites exactly its two
baseline endpoint pieces; every one_close call of the close_whites sweep
that involves the wall is a same-endpoint self-call and leaves the state
unchanged; and after close_whites its h1/h2 are the direction defaults. -/
theorem wall_isolated_defaults (e : ElidedRules) (ls : List linerec)
    (ws : List whiterec) (iw : Nat) (w : linerec)
    (hw : ls.getD iw noWall = w) (hiw : iw < ls.length)
    (hdir : w.newtype = 1 ∨ w.newtype = 2 ∨ w.newtype = 3 ∨
            w.newtype = 5 ∨ w.newtype = 8)
    (hisol : ∀ k, k < ls.length → k ≠ iw → ∀ i j : Bool,
        epx (ls.getD k noWall) i > epx w j + 6 ∨
        epx w j > epx (ls.getD k noWall) i + 6 ∨
        epy (ls.getD k noWall) i > epy w j + 6 ∨
        epy w j > epy (ls.getD k noWall) i + 6)
    (hself : w.endx > w.startx + 2 ∨ w.startx > w.endx + 2 ∨
             w.endy > w.starty + 2 ∨ w.starty > w.endy + 2) :
    wallWhites w =
      [⟨w.startx, w.starty, 6, ((whitepicts w.newtype).1).getD [], false⟩,
       ⟨w.endx, w.endy, 6, ((whitepicts w.newtype).2).getD [], false⟩] ∧
    (∀ c ∈ closeCalls (ls.map setDefaults), (c.a = iw ∨ c.b = iw) →
        (c.a = iw ∧ c.b = iw ∧ c.n = c.m) ∧ ∀ s, one_close e c s = s) ∧
    ((close_whites e ls ws).walls.getD iw noWall).h1 = simpleh1 w.newtype ∧
    ((close_whites e ls ws).walls.getD iw noWall).h2 =
      w.length + simpleh2 w.newtype := by
  have hep : ∀ (k : Nat), k < ls.length → ∀ i : Bool,
      epx ((ls.map setDefaults).getD k noWall) i = epx (ls.getD k noWall) i :=
    fun k hk i => by rw [getD_map_setDefaults ls k hk, epx_setDefaults]
  have hey : ∀ (k : Nat), k < ls.length → ∀ i : Bool,
      epy ((ls.map setDefaults).getD k noWall) i = epy (ls.getD k noWall) i :=
    fun k hk i => by rw [getD_map_setDefaults ls k hk, epy_setDefaults]
  have hlen : (ls.map setDefaults).length = ls.length := by simp
  have hcalls : ∀ c ∈ closeCalls (ls.map setDefaults),
      (c.a = iw ∨ c.b = iw) →
      (c.a = iw ∧ c.b = iw ∧ c.n = c.m) ∧ ∀ s, one_close e c s = s := by
    intro c hc hinv
    obtain ⟨hal, hbl, hb1, hb2, hb3, hb4⟩ :=
      closeCalls_mem (ls.map setDefaults) c hc
    rw [hlen] at hal hbl
    rw [hep c.a hal, hep c.b hbl] at hb1 hb3
    rw [hey c.a hal, hey c.b hbl] at hb2 hb4
    have hboth : c.a = iw ∧ c.b = iw := by
      rcases hinv with ha | hb
      · refine ⟨ha, ?_⟩
        by_contra hbne
        have hk := hisol c.b hbl hbne c.m c.n
        rw [ha, hw] at hb1 hb2 hb3 hb4
        rcases hk with hk | hk | hk | hk <;> omega
      · refine ⟨?_, hb⟩
        by_contra hane
        have hk := hisol c.a hal hane c.n c.m
        rw [hb, hw] at hb1 hb2 hb3 hb4
        rcases hk with hk | hk | hk | hk <;> omega
    have hnm : c.n = c.m := by
      by_contra hne
      rw [hboth.1, hboth.2, hw] at hb1 hb2 hb3 hb4
      cases hcn : c.n <;> cases hcm : c.m
      · exact hne (hcn.trans hcm.symm)
      · rw [hcn, hcm] at hb1 hb2 hb3 hb4
        simp [epx, epy] at hb1 hb2 hb3 hb4
        omega
      · rw [hcn, hcm] at hb1 hb2 hb3 hb4
        simp [epx, epy] at hb1 hb2 hb3 hb4
        omega
      · exact hne (hcn.trans hcm.symm)
    exact ⟨⟨hboth.1, hboth.2, hnm⟩,
      one_close_self e c (hboth.1.trans hboth.2.symm) hnm⟩
  refine ⟨?_, hcalls, ?_, ?_⟩
  · rcases hdir with h | h | h | h | h <;>
      simp [wallWhites, whitepicts, h]
  · have hfold := foldl_one_close_preserve e iw
      (closeCalls (ls.map setDefaults))
      (fun c hc hinv => (hcalls c hc hinv).2) ⟨ls.map setDefaults, ws⟩
    show (((closeCalls (ls.map setDefaults)).foldl (fun s c => one_close e c s)
        ⟨ls.map setDefaults, ws⟩).walls.getD iw noWall).h1 = _
    rw [hfold]
    show ((ls.map setDefaults).getD iw noWall).h1 = _
    rw [getD_map_setDefaults ls iw hiw, hw]
    rfl
  · have hfold := foldl_one_close_preserve e iw
      (closeCalls (ls.map setDefaults))
      (fun c hc hinv => (hcalls c hc hinv).2) ⟨ls.map setDefaults, ws⟩
    show (((closeCalls (ls.map setDefaults)).foldl (fun s c => one_close e c s)
        ⟨ls.map setDefaults, ws⟩).walls.getD iw noWall).h2 = _
    rw [hfold]
    show ((ls.map setDefaults).getD iw noWall).h2 = _
    rw [getD_map_setDefaults ls iw hiw, hw]
    rfl

def c8NEWall : linerec := ⟨100, 100, 120, 80, 28, 7, 0, 0⟩

/-- C8 (counterexample): an isolated NE wall receives three pieces from
norm_whites, not the two the claim asserts: besides its two baseline
endpoint pieces it always gets the hand-authored neglitch piece. -/
theorem c8_counterexample :
    norm_whites [c8NEWall] =
      [⟨100, 100, 6, nebot, false⟩, ⟨120, 80, 6, generictop, false⟩,
       ⟨116, 82, 4, neglitch, false⟩] ∧
    (norm_whites [c8NEWall]).length = 3 ∧ (3 : Nat) ≠ 2 := by decide

def c8SWall : linerec := ⟨100, 30, 100, 50, 20, 1, 0, 0⟩

/-- C8 (witness): the amended theorem applied to a lone South wall: after
close_whites its h1 is the direction default 6 and its h2 is
length + 0 = 20. -/
theorem c8_witness :
    ((close_whites noElided [c8SWall] []).walls.getD 0 noWall).h1 = 6 ∧
    ((close_whites noElided [c8SWall] []).walls.getD 0 noWall).h2 = 20 := by
  have h := wall_isolated_defaults noElided [c8SWall] [] 0 c8SWall rfl
    (by decide) (by decide)
    (fun k hk hne i j => absurd (Nat.lt_one_iff.mp (by simpa using hk)) hne)
    (by decide)
  exact ⟨h.2.2.1.trans (by decide), h.2.2.2.trans (by decide)⟩

/-! ## white_hash_merge: the crosshatch overlay pass -/

/-- 16-bit rotate left by one (the rol.w #1 of the source). -/
def rol16 (b : Nat) : Nat := ((b % 65536) * 2) % 65536 + (b % 65536) / 32768

/-- One overlaid row: (back AND (NOT data OR hash)) XOR hash, on 16-bit
values. -/
def overlayRow (back d h : Nat) : Nat :=
  (back &&& (((d % 65536) ^^^ 65535) ||| h)) ^^^ h

/-- The 6-row overlay loop, rotating the background pattern between rows. -/
def overlayGo : Nat → List Nat → List Nat → List Nat
  | _, _, [] => []
  | back, ds, h :: hr =>
    overlayRow back (ds.headD 0) h :: overlayGo (rol16 back) ds.tail hr

def overlayRows (back : Nat) (d : List Nat) : List Nat :=
  overlayGo back d hash_figure

/-- The junction x at a cursor position, with the sentinel 20000 beyond the
end of the array (real coordinates stay below it). -/
def jxOf (js : List (Int × Int)) (k : Nat) : Int :=
  if k < js.length then (js.getD k (0, 0)).1 else 20000

/-- The backward cursor move: while (j > junctions and j->x >= wh->x) j--. -/
def stepBack (js : List (Int × Int)) (wx : Int) : Nat → Nat
  | 0 => 0
  | c + 1 => if jxOf js (c + 1) ≥ wx then stepBack js wx c else c + 1

/-- The forward cursor move: while (j->x <= wh->x and j->y != wh->y) j++. -/
def stepFwdGo (wx wy : Int) : List (Int × Int) → Nat → Nat
  | [], c => c
  | j :: r, c => if j.1 ≤ wx ∧ j.2 ≠ wy then stepFwdGo wx wy r (c + 1) else c

def stepFwd (js : List (Int × Int)) (wx wy : Int) (c : Nat) : Nat :=
  stepFwdGo wx wy (js.drop c) c

/-- The backward neighbour scan of no_close_wh, over the already-processed
pieces in reverse order (head = immediate predecessor). -/
def backScan (w : whiterec) : List whiterec → Bool
  | [] => true
  | p :: r =>
    if p.x > w.x - 3 then
      if p.y < w.y + 3 ∧ p.y > w.y - 3 then false else backScan w r
    else true

/-- The forward neighbour scan of no_close_wh, over the following pieces. -/
def fwdScan (w : whiterec) : List whiterec → Bool
  | [] => true
  | p :: r =>
    if p.x < w.x + 3 then
      if p.y < w.y + 3 ∧ p.y > w.y - 3 then false else fwdScan w r
    else true

/-- no_close_wh: no other white piece strictly within 3 pixels on both axes,
computed by the two early-exit scans of the source. -/
def no_close_wh (done : List whiterec) (w : whiterec) (rest : List whiterec) :
    Bool :=
  backScan w done && fwdScan w rest

/-- The main loop of white_hash_merge.  done holds the already-processed
pieces in reverse order; the loop stops at the first piece with
x >= worldwidth - 8, skips pieces failing the height-6 / isolation /
x > 8 guard, and otherwise moves the persistent junction cursor and, on an
exact coordinate match, overlays the piece and removes the junction. -/
def hmAux (ww : Int) (b1 b2 : Nat) :
    List whiterec → List whiterec → List (Int × Int) → Nat →
    List whiterec × List (Int × Int) × Nat
  | done, [], js, c => (done.reverse, js, c)
  | done, w :: rest, js, c =>
    if w.x < ww - 8 then
      if w.ht = 6 ∧ no_close_wh done w rest ∧ w.x > 8 then
        let c2 := stepFwd js w.x w.y (stepBack js w.x c)
        if c2 < js.length ∧ (js.getD c2 (0, 0)).1 = w.x ∧
            (js.getD c2 (0, 0)).2 = w.y then
          hmAux ww b1 b2
            (⟨w.x, w.y, w.ht,
              overlayRows (if (w.x + w.y) % 2 ≠ 0 then b2 % 65536
                           else b1 % 65536) w.data, true⟩ :: done)
            rest (js.eraseIdx c2) c2
        else hmAux ww b1 b2 (w :: done) rest js c2
      else hmAux ww b1 b2 (w :: done) rest js c
    else (done.reverse ++ w :: rest, js, c)

/-- white_hash_merge: run the loop from the start of the sorted piece list
with the cursor at the start of the sorted junction list. -/
def white_hash_merge (ww : Int) (b1 b2 : Nat) (ws : List whiterec)
    (js : List (Int × Int)) : List whiterec × List (Int × Int) :=
  ((hmAux ww b1 b2 [] ws js 0).1, (hmAux ww b1 b2 [] ws js 0).2.1)

/-! ## The junction sort of init_walls and the full preparation pipeline -/

/-- One step of the insertion sort of junctions (ascending x, stable). -/
def insertJunction (p : Int × Int) : List (Int × Int) → List (Int × Int)
  | [] => [p]
  | a :: r => if p.1 < a.1 then p :: a :: r else a :: insertJunction p r

def sortJunctions (js : List (Int × Int)) : List (Int × Int) :=
  js.foldl (fun acc p => insertJunction p acc) []

/-- The preparation phase state after init_walls: walls with their final
h1/h2, the merged and overlaid white pieces, the surviving junctions. -/
structure PrepState where
  walls : List linerec
  whites : List whiterec
  junctions : List (Int × Int)
deriving DecidableEq, Repr

/-- init_walls followed by init_whites: find and sort the junctions, emit
the normal whites, compute the junction patches, sort and merge the whites,
then apply the crosshatch overlays. -/
def init_walls (e : ElidedRules) (ww : Int) (b1 b2 : Nat)
    (ls : List linerec) : PrepState :=
  let js := sortJunctions (findJunctions (endpoints ls))
  let s := close_whites e ls (norm_whites ls)
  let ws := mergeWhites (sortWhites s.whites)
  ⟨s.walls, (white_hash_merge ww b1 b2 ws js).1,
    (white_hash_merge ww b1 b2 ws js).2⟩

theorem hmAux_getD_done (ww : Int) (b1 b2 : Nat) :
    ∀ (rest done : List whiterec) (js : List (Int × Int)) (c k : Nat),
      k < done.length →
      (hmAux ww b1 b2 done rest js c).1.getD k noWhite =
        done.reverse.getD k noWhite := by
  intro rest
  induction rest with
  | nil => intro done js c k hk; rfl
  | cons w r ih =>
    intro done js c k hk
    simp only [hmAux]
    split
    · split
      · split
        · rw [ih _ _ _ k (by simp; omega)]
          rw [List.reverse_cons, List.getD_append _ _ _ _ (by simpa using hk)]
        · rw [ih _ _ _ k (by simp; omega)]
          rw [List.reverse_cons, List.getD_append _ _ _ _ (by simpa using hk)]
      · rw [ih _ _ _ k (by simp; omega)]
        rw [List.reverse_cons, List.getD_append _ _ _ _ (by simpa using hk)]
    · rw [List.getD_append _ _ _ _ (by simpa using hk)]

theorem hmAux_untouched (ww : Int) (b1 b2 : Nat) :
    ∀ (rest done : List whiterec) (js : List (Int × Int)) (c k : Nat),
      k < rest.length →
      ((rest.getD k noWhite).x ≤ 8 ∨ (rest.getD k noWhite).x ≥ ww - 8) →
      (hmAux ww b1 b2 done rest js c).1.getD (done.length + k) noWhite =
        rest.getD k noWhite := by
  intro rest
  induction rest with
  | nil => intro done js c k hk; simp at hk
  | cons w r ih =>
    intro done js c k hk hx
    cases k with
    | zero =>
      simp only [List.getD_cons_zero] at hx ⊢
      simp only [hmAux]
      by_cases hlt : w.x < ww - 8
      · have hx8 : w.x ≤ 8 := by omega
        rw [if_pos hlt]
        rw [if_neg (fun hg => by omega)]
        rw [hmAux_getD_done ww b1 b2 r (w :: done) js c (done.length + 0)
          (by simp)]
        simp
      · rw [if_neg hlt]
        rw [List.getD_append_right _ _ _ _ (by simp),
          (by simp : (done.reverse).length = done.length)]
        simp
    | succ k =>
      simp only [List.getD_cons_succ] at hx ⊢
      simp only [hmAux]
      split
      · split
        · split
          · rw [show ∀ d : List whiterec, d.length + (k + 1) =
                (⟨w.x, w.y, w.ht, overlayRows
                  (if (w.x + w.y) % 2 ≠ 0 then b2 % 65536 else b1 % 65536)
                  w.data, true⟩ :: d).length + k from fun d => by
                  simp only [List.length_cons]; omega]
            exact ih _ _ _ k (by simpa using hk) hx
          · rw [show done.length + (k + 1) = (w :: done).length + k from by
              simp only [List.length_cons]; omega]
            exact ih _ _ _ k (by simpa using hk) hx
        · rw [show done.length + (k + 1) = (w :: done).length + k from by
            simp only [List.length_cons]; omega]
          exact ih _ _ _ k (by simpa using hk) hx
      · rw [List.getD_append_right _ _ _ _ (by
          simp only [List.length_reverse]; omega)]
        simp only [List.length_reverse]
        rw [show done.length + (k + 1) - done.length = k + 1 from by omega]
        simp

theorem eq_getD_of_not_mem_eraseIdx {α : Type _} [DecidableEq α] :
    ∀ (l : List α) (i : Nat) (x d : α), x ∈ l → x ∉ l.eraseIdx i →
      i < l.length ∧ x = l.getD i d := by
  intro l
  induction l with
  | nil => intro i x d hx; simp at hx
  | cons a r ih =>
    intro i x d hx hni
    cases i with
    | zero =>
      simp only [List.eraseIdx_cons_zero] at hni
      rcases List.mem_cons.mp hx with h | h
      · exact ⟨by simp, by simpa using h⟩
      · exact absurd h hni
    | succ i =>
      simp only [List.eraseIdx_cons_succ] at hni
      have hxa : x ≠ a := by
        intro he
        exact hni (by rw [he]; exact List.mem_cons_self a _)
      have hxr : x ∈ r := by
        rcases List.mem_cons.mp hx with h | h
        · exact absurd h hxa
        · exact h
      have hnr : x ∉ r.eraseIdx i :=
        fun hmem => hni (List.mem_cons_of_mem a hmem)
      obtain ⟨hlt, heq⟩ := ih i x d hxr hnr
      exact ⟨by simpa using Nat.succ_lt_succ hlt, by simpa using heq⟩

theorem hmAux_removed (ww : Int) (b1 b2 : Nat) :
    ∀ (rest done : List whiterec) (js : List (Int × Int)) (c : Nat),
      ∀ j ∈ js, j ∉ (hmAux ww b1 b2 done rest js c).2.1 →
        ∃ k, k < rest.length ∧
          ((hmAux ww b1 b2 done rest js c).1.getD (done.length + k)
              noWhite).hasj = true ∧
          ((hmAux ww b1 b2 done rest js c).1.getD (done.length + k)
              noWhite).x = j.1 ∧
          ((hmAux ww b1 b2 done rest js c).1.getD (done.length + k)
              noWhite).y = j.2 ∧
          8 < ((hmAux ww b1 b2 done rest js c).1.getD (done.length + k)
              noWhite).x ∧
          ((hmAux ww b1 b2 done rest js c).1.getD (done.length + k)
              noWhite).x < ww - 8 := by
  intro rest
  induction rest with
  | nil => intro done js c j hj hnj; exact absurd hj hnj
  | cons w r ih =>
    intro done js c j hj hnj
    simp only [hmAux] at hnj ⊢
    by_cases hlt : w.x < ww - 8
    swap
    · rw [if_neg hlt] at hnj
      exact absurd hj hnj
    rw [if_pos hlt] at hnj ⊢
    by_cases hguard : w.ht = 6 ∧ no_close_wh done w r = true ∧ w.x > 8
    swap
    · rw [if_neg hguard] at hnj ⊢
      obtain ⟨k, hk, hrest⟩ := ih _ _ _ j hj hnj
      refine ⟨k + 1, by simpa using Nat.succ_lt_succ hk, ?_⟩
      rw [show done.length + (k + 1) = (w :: done).length + k from by
        simp only [List.length_cons]; omega]
      exact hrest
    rw [if_pos hguard] at hnj ⊢
    by_cases hmatch : stepFwd js w.x w.y (stepBack js w.x c) < js.length ∧
        (js.getD (stepFwd js w.x w.y (stepBack js w.x c)) (0, 0)).1 = w.x ∧
        (js.getD (stepFwd js w.x w.y (stepBack js w.x c)) (0, 0)).2 = w.y
    swap
    · rw [if_neg hmatch] at hnj ⊢
      obtain ⟨k, hk, hrest⟩ := ih _ _ _ j hj hnj
      refine ⟨k + 1, by simpa using Nat.succ_lt_succ hk, ?_⟩
      rw [show done.length + (k + 1) = (w :: done).length + k from by
        simp only [List.length_cons]; omega]
      exact hrest
    rw [if_pos hmatch] at hnj ⊢
    by_cases hje : j ∈ js.eraseIdx (stepFwd js w.x w.y (stepBack js w.x c))
    · obtain ⟨k, hk, hrest⟩ := ih _ _ _ j hje hnj
      refine ⟨k + 1, by simpa using Nat.succ_lt_succ hk, ?_⟩
      rw [show done.length + (k + 1) =
        (⟨w.x, w.y, w.ht, overlayRows
          (if (w.x + w.y) % 2 ≠ 0 then b2 % 65536 else b1 % 65536)
          w.data, true⟩ :: done).length + k from by
          simp only [List.length_cons]; omega]
      exact hrest
    · obtain ⟨hclt, hjeq⟩ := eq_getD_of_not_mem_eraseIdx js
        (stepFwd js w.x w.y (stepBack js w.x c)) j (0, 0) hj hje
      refine ⟨0, by simp, ?_⟩
      rw [Nat.add_zero, hmAux_getD_done ww b1 b2 r _ _ _ done.length
        (by simp)]
      rw [List.reverse_cons, List.getD_append_right _ _ _ _
        (by simp), (by simp : (done.reverse).length = done.length)]
      simp only [Nat.sub_self, List.getD_cons_zero]
      rcases hmatch with ⟨hm1, hm2, hm3⟩
      refine ⟨by trivial, ?_, ?_, by simpa using hguard.2.2, by simpa using hlt⟩
      · show w.x = j.1
        rw [hjeq]; exact hm2.symm
      · show w.y = j.2
        rw [hjeq]; exact hm3.symm

/-- C10: white_hash_merge leaves every piece with x at most 8 or x at least
worldwidth - 8 completely unchanged (bitmap, hasJunction flag and all) even
when it is a height-6 isolated piece sitting exactly on an unconsumed
junction, and every junction the pass removes is accounted to an overlaid
piece strictly inside the border (8 < x < worldwidth - 8), so no junction
is ever removed on a border piece's account. -/
theorem hash_merge_skips_border (ww : Int) (b1 b2 : Nat)
    (ws : List whiterec) (js : List (Int × Int)) (k : Nat)
    (hk : k < ws.length)
    (hx : (ws.getD k noWhite).x ≤ 8 ∨ (ws.getD k noWhite).x ≥ ww - 8) :
    (white_hash_merge ww b1 b2 ws js).1.getD k noWhite = ws.getD k noWhite ∧
    (∀ j ∈ js, j ∉ (white_hash_merge ww b1 b2 ws js).2 →
      ∃ k2, k2 < ws.length ∧
        ((white_hash_merge ww b1 b2 ws js).1.getD k2 noWhite).hasj = true ∧
        ((white_hash_merge ww b1 b2 ws js).1.getD k2 noWhite).x = j.1 ∧
        ((white_hash_merge ww b1 b2 ws js).1.getD k2 noWhite).y = j.2 ∧
        8 < ((white_hash_merge ww b1 b2 ws js).1.getD k2 noWhite).x ∧
        ((white_hash_merge ww b1 b2 ws js).1.getD k2 noWhite).x < ww - 8) := by
  constructor
  · have h := hmAux_untouched ww b1 b2 ws [] js 0 k hk hx
    simpa [white_hash_merge] using h
  · intro j hj hnj
    have h := hmAux_removed ww b1 b2 ws [] js 0 j hj
      (by simpa [white_hash_merge] using hnj)
    simpa [white_hash_merge] using h

/-- C10 (witness): a piece at x = 5 on a junction at its exact coordinates
stays untouched. -/
theorem c10_witness :
    (white_hash_merge 100 0 0 [⟨5, 5, 6, generictop, false⟩] [(5, 5)]).1.getD
        0 noWhite = ⟨5, 5, 6, generictop, false⟩ :=
  (hash_merge_skips_border 100 0 0 [⟨5, 5, 6, generictop, false⟩] [(5, 5)] 0
    (by decide) (by decide)).1.trans (by decide)

/-- The number of overlaid (hasJunction) pieces. -/
def countHasj (ws : List whiterec) : Nat := ws.countP (fun p => p.hasj)

theorem hmAux_count (ww : Int) (b1 b2 : Nat) :
    ∀ (rest done : List whiterec) (js : List (Int × Int)) (c : Nat),
      (∀ p ∈ rest, p.hasj = false) →
      (hmAux ww b1 b2 done rest js c).2.1.length +
        countHasj (hmAux ww b1 b2 done rest js c).1 =
      js.length + countHasj done := by
  intro rest
  induction rest with
  | nil =>
    intro done js c _
    simp [hmAux, countHasj]
  | cons w r ih =>
    intro done js c hfalse
    have hwf : w.hasj = false := hfalse w (List.mem_cons_self w r)
    have hrf : ∀ p ∈ r, p.hasj = false :=
      fun p hp => hfalse p (List.mem_cons_of_mem w hp)
    simp only [hmAux]
    by_cases hlt : w.x < ww - 8
    swap
    · rw [if_neg hlt]
      simp only [countHasj, List.countP_append, List.countP_reverse]
      have hz : List.countP (fun p => p.hasj) (w :: r) = 0 := by
        rw [List.countP_eq_zero]
        intro p hp
        simp [hfalse p hp]
      rw [hz]
      simp [countHasj]
    rw [if_pos hlt]
    by_cases hguard : w.ht = 6 ∧ no_close_wh done w r = true ∧ w.x > 8
    swap
    · rw [if_neg hguard]
      rw [ih (w :: done) js c hrf]
      simp [countHasj, hwf]
    rw [if_pos hguard]
    by_cases hmatch : stepFwd js w.x w.y (stepBack js w.x c) < js.length ∧
        (js.getD (stepFwd js w.x w.y (stepBack js w.x c)) (0, 0)).1 = w.x ∧
        (js.getD (stepFwd js w.x w.y (stepBack js w.x c)) (0, 0)).2 = w.y
    swap
    · rw [if_neg hmatch]
      rw [ih (w :: done) js _ hrf]
      simp [countHasj, hwf]
    rw [if_pos hmatch]
    rw [ih _ _ _ hrf]
    have hel : (js.eraseIdx (stepFwd js w.x w.y (stepBack js w.x c))).length =
        js.length - 1 := by
      rw [List.length_eraseIdx]
      simp [hmatch.1]
    rw [hel]
    have h1 : 1 ≤ js.length := by
      have := hmatch.1
      omega
    simp only [countHasj, List.countP_cons]
    simp only [decide_eq_true_eq, if_pos]
    omega

/-! ## Characterising no_close_wh on sorted piece lists -/

theorem getD_eq_getElem' {α : Type _} (l : List α) (n : Nat) (d : α)
    (h : n < l.length) : l.getD n d = l[n] := by
  rw [List.getD_eq_getElem?_getD, List.getElem?_eq_getElem h]
  rfl

theorem getD_mem' {α : Type _} (l : List α) (n : Nat) (d : α)
    (h : n < l.length) : l.getD n d ∈ l := by
  rw [getD_eq_getElem' l n d h]
  exact List.getElem_mem h

theorem getD_drop' {α : Type _} (l : List α) (m k : Nat) (d : α) :
    (l.drop m).getD k d = l.getD (m + k) d := by
  rw [List.getD_eq_getElem?_getD, List.getD_eq_getElem?_getD,
    List.getElem?_drop]

theorem getD_take' {α : Type _} (l : List α) (n k : Nat) (d : α)
    (h : k < n) : (l.take n).getD k d = l.getD k d := by
  rw [List.getD_eq_getElem?_getD, List.getD_eq_getElem?_getD,
    List.getElem?_take, if_pos h]

theorem backScan_true_far :
    ∀ (done : List whiterec) (w : whiterec),
      done.Pairwise (fun a b => b.x ≤ a.x) →
      backScan w done = true →
      ∀ p ∈ done,
        ¬(w.x - 2 ≤ p.x ∧ p.x ≤ w.x + 2 ∧ w.y - 2 ≤ p.y ∧ p.y ≤ w.y + 2) := by
  intro done
  induction done with
  | nil => intro w _ _ p hp; simp at hp
  | cons p0 r2 ihp =>
    intro w hpair htrue p hp
    rw [backScan] at htrue
    by_cases h0 : p0.x > w.x - 3
    · rw [if_pos h0] at htrue
      by_cases hy : p0.y < w.y + 3 ∧ p0.y > w.y - 3
      · rw [if_pos hy] at htrue
        exact absurd htrue (by simp)
      · rw [if_neg hy] at htrue
        rcases List.mem_cons.mp hp with hpe | hpm
        · subst hpe
          intro hclose
          exact hy ⟨by omega, by omega⟩
        · exact ihp w (List.pairwise_cons.mp hpair).2 htrue p hpm
    · rw [if_neg h0] at htrue
      have hle : p.x ≤ p0.x := by
        rcases List.mem_cons.mp hp with hpe | hpm
        · subst hpe; exact le_refl _
        · exact (List.pairwise_cons.mp hpair).1 p hpm
      intro hclose
      omega

theorem fwdScan_true_far :
    ∀ (rest : List whiterec) (w : whiterec),
      rest.Pairwise (fun a b => a.x ≤ b.x) →
      fwdScan w rest = true →
      ∀ p ∈ rest,
        ¬(w.x - 2 ≤ p.x ∧ p.x ≤ w.x + 2 ∧ w.y - 2 ≤ p.y ∧ p.y ≤ w.y + 2) := by
  intro rest
  induction rest with
  | nil => intro w _ _ p hp; simp at hp
  | cons p0 r2 ihp =>
    intro w hpair htrue p hp
    rw [fwdScan] at htrue
    by_cases h0 : p0.x < w.x + 3
    · rw [if_pos h0] at htrue
      by_cases hy : p0.y < w.y + 3 ∧ p0.y > w.y - 3
      · rw [if_pos hy] at htrue
        exact absurd htrue (by simp)
      · rw [if_neg hy] at htrue
        rcases List.mem_cons.mp hp with hpe | hpm
        · subst hpe
          intro hclose
          exact hy ⟨by omega, by omega⟩
        · exact ihp w (List.pairwise_cons.mp hpair).2 htrue p hpm
    · rw [if_neg h0] at htrue
      have hle : p0.x ≤ p.x := by
        rcases List.mem_cons.mp hp with hpe | hpm
        · subst hpe; exact le_refl _
        · exact (List.pairwise_cons.mp hpair).1 p hpm
      intro hclose
      omega

theorem backScan_far_true :
    ∀ (done : List whiterec) (w : whiterec),
      (∀ p ∈ done, p.x ≤ w.x) →
      (∀ p ∈ done,
        ¬(w.x - 2 ≤ p.x ∧ p.x ≤ w.x + 2 ∧ w.y - 2 ≤ p.y ∧ p.y ≤ w.y + 2)) →
      backScan w done = true := by
  intro done
  induction done with
  | nil => intro w _ _; rfl
  | cons p0 r2 ihp =>
    intro w hle hfar
    rw [backScan]
    by_cases h0 : p0.x > w.x - 3
    · rw [if_pos h0]
      have hp0 := hfar p0 (List.mem_cons_self p0 r2)
      have hp0x := hle p0 (List.mem_cons_self p0 r2)
      rw [if_neg (fun hy => hp0 ⟨by omega, by omega, by omega, by omega⟩)]
      exact ihp w (fun p hp => hle p (List.mem_cons_of_mem p0 hp))
        (fun p hp => hfar p (List.mem_cons_of_mem p0 hp))
    · rw [if_neg h0]

theorem fwdScan_far_true :
    ∀ (rest : List whiterec) (w : whiterec),
      (∀ p ∈ rest, w.x ≤ p.x) →
      (∀ p ∈ rest,
        ¬(w.x - 2 ≤ p.x ∧ p.x ≤ w.x + 2 ∧ w.y - 2 ≤ p.y ∧ p.y ≤ w.y + 2)) →
      fwdScan w rest = true := by
  intro rest
  induction rest with
  | nil => intro w _ _; rfl
  | cons p0 r2 ihp =>
    intro w hle hfar
    rw [fwdScan]
    by_cases h0 : p0.x < w.x + 3
    · rw [if_pos h0]
      have hp0 := hfar p0 (List.mem_cons_self p0 r2)
      have hp0x := hle p0 (List.mem_cons_self p0 r2)
      rw [if_neg (fun hy => hp0 ⟨by omega, by omega, by omega, by omega⟩)]
      exact ihp w (fun p hp => hle p (List.mem_cons_of_mem p0 hp))
        (fun p hp => hfar p (List.mem_cons_of_mem p0 hp))
    · rw [if_neg h0]

/-- The position, coordinates and height of a piece, used to relate the
processed prefix of the loop to the original sorted list (the overlay never
changes them). -/
def coordsHt (p : whiterec) : Int × Int × Int := (p.x, p.y, p.ht)

theorem pairwise_wLexLe_of_map_eq {l1 l2 : List whiterec}
    (hmap : l1.map coordsHt = l2.map coordsHt)
    (h : l2.Pairwise wLexLe) : l1.Pairwise wLexLe := by
  have h2 : (l2.map coordsHt).Pairwise
      (fun u v : Int × Int × Int =>
        u.1 < v.1 ∨ (u.1 = v.1 ∧ u.2.1 ≤ v.2.1)) := by
    rw [List.pairwise_map]
    exact h
  rw [← hmap] at h2
  rw [List.pairwise_map] at h2
  exact h2

theorem coordsHt_getD_of_map_eq {l1 l2 : List whiterec}
    (hmap : l1.map coordsHt = l2.map coordsHt) (k : Nat)
    (hk : k < l1.length) :
    (l1.getD k noWhite).x = (l2.getD k noWhite).x ∧
    (l1.getD k noWhite).y = (l2.getD k noWhite).y ∧
    (l1.getD k noWhite).ht = (l2.getD k noWhite).ht := by
  have hlen : l1.length = l2.length := by
    have := congrArg List.length hmap
    simpa using this
  have h1 : (l1.map coordsHt).getD k (coordsHt noWhite) =
      (l2.map coordsHt).getD k (coordsHt noWhite) := by rw [hmap]
  rw [getD_eq_getElem' _ k _ (by simpa using hk),
    getD_eq_getElem' _ k _ (by simp; omega)] at h1
  rw [List.getElem_map, List.getElem_map] at h1
  rw [getD_eq_getElem' l1 k _ hk, getD_eq_getElem' l2 k _ (by omega)]
  exact ⟨congrArg (fun u => u.1) h1,
    congrArg (fun u => u.2.1) h1, congrArg (fun u => u.2.2) h1⟩

theorem hmAux_hasj_sound (ww : Int) (b1 b2 : Nat) (ws0 : List whiterec)
    (hsorted : ws0.Pairwise wLexLe) :
    ∀ (rest done : List whiterec) (js : List (Int × Int)) (c : Nat),
      rest = ws0.drop done.length →
      done.reverse.map coordsHt = (ws0.take done.length).map coordsHt →
      (∀ p ∈ rest, p.hasj = false) →
      ∀ k, k < rest.length →
      ((hmAux ww b1 b2 done rest js c).1.getD (done.length + k)
          noWhite).hasj = true →
      ((ws0.getD (done.length + k) noWhite).ht = 6 ∧
       8 < (ws0.getD (done.length + k) noWhite).x ∧
       (ws0.getD (done.length + k) noWhite).x < ww - 8 ∧
       ((ws0.getD (done.length + k) noWhite).x,
         (ws0.getD (done.length + k) noWhite).y) ∈ js ∧
       ∀ i2, i2 < ws0.length → i2 ≠ done.length + k →
         ¬((ws0.getD (done.length + k) noWhite).x - 2 ≤
             (ws0.getD i2 noWhite).x ∧
           (ws0.getD i2 noWhite).x ≤
             (ws0.getD (done.length + k) noWhite).x + 2 ∧
           (ws0.getD (done.length + k) noWhite).y - 2 ≤
             (ws0.getD i2 noWhite).y ∧
           (ws0.getD i2 noWhite).y ≤
             (ws0.getD (done.length + k) noWhite).y + 2)) := by
  intro rest
  induction rest with
  | nil => intro done js c _ _ _ k hk; simp at hk
  | cons w r ih =>
    intro done js c hrest hmap hfalse k hk hout
    have hn_lt : done.length < ws0.length := by
      by_contra hge
      push_neg at hge
      rw [List.drop_eq_nil_of_le hge] at hrest
      simp at hrest
    have hw_eq : ws0.getD done.length noWhite = w := by
      have h0 := getD_drop' ws0 done.length 0 noWhite
      rw [← hrest] at h0
      simpa using h0.symm
    have hr_eq : r = ws0.drop (done.length + 1) := by
      have h1 := List.drop_drop 1 done.length ws0
      rw [← hrest] at h1
      simpa using h1
    have hwf : w.hasj = false := hfalse w (List.mem_cons_self w r)
    have hrf : ∀ p ∈ r, p.hasj = false :=
      fun p hp => hfalse p (List.mem_cons_of_mem w hp)
    have hmapstep : ∀ w' : whiterec, coordsHt w' = coordsHt w →
        (w' :: done).reverse.map coordsHt =
          (ws0.take (done.length + 1)).map coordsHt := by
      intro w' hco
      rw [List.reverse_cons, List.map_append, hmap, List.take_succ]
      rw [List.getElem?_eq_getElem hn_lt]
      simp only [List.map_cons, List.map_nil, Option.toList_some]
      rw [← getD_eq_getElem' ws0 done.length noWhite hn_lt, hw_eq]
      simp [hco]
    simp only [hmAux] at hout
    by_cases hlt : w.x < ww - 8
    swap
    · rw [if_neg hlt] at hout
      exfalso
      rw [List.getD_append_right _ _ _ _ (by
        simp only [List.length_reverse]; omega)] at hout
      simp only [List.length_reverse] at hout
      rw [show done.length + k - done.length = k from by omega] at hout
      have : (w :: r).getD k noWhite ∈ w :: r :=
        getD_mem' _ _ _ (by simpa using hk)
      rw [hfalse _ this] at hout
      exact Bool.false_ne_true hout
    rw [if_pos hlt] at hout
    by_cases hguard : w.ht = 6 ∧ no_close_wh done w r = true ∧ w.x > 8
    swap
    · rw [if_neg hguard] at hout
      cases k with
      | zero =>
        exfalso
        rw [Nat.add_zero, hmAux_getD_done ww b1 b2 r (w :: done) js c
          done.length (by simp)] at hout
        rw [List.reverse_cons, List.getD_append_right _ _ _ _ (by simp),
          (by simp : (done.reverse).length = done.length)] at hout
        simp only [Nat.sub_self, List.getD_cons_zero] at hout
        rw [hwf] at hout
        exact Bool.false_ne_true hout
      | succ k =>
        rw [show done.length + (k + 1) = (w :: done).length + k from by
          simp only [List.length_cons]; omega] at hout ⊢
        exact ih (w :: done) js c (by simpa using hr_eq)
          (hmapstep w rfl) hrf k (by simpa using hk) hout
    rw [if_pos hguard] at hout
    by_cases hmatch : stepFwd js w.x w.y (stepBack js w.x c) < js.length ∧
        (js.getD (stepFwd js w.x w.y (stepBack js w.x c)) (0, 0)).1 = w.x ∧
        (js.getD (stepFwd js w.x w.y (stepBack js w.x c)) (0, 0)).2 = w.y
    swap
    · rw [if_neg hmatch] at hout
      cases k with
      | zero =>
        exfalso
        rw [Nat.add_zero, hmAux_getD_done ww b1 b2 r (w :: done) js _
          done.length (by simp)] at hout
        rw [List.reverse_cons, List.getD_append_right _ _ _ _ (by simp),
          (by simp : (done.reverse).length = done.length)] at hout
        simp only [Nat.sub_self, List.getD_cons_zero] at hout
        rw [hwf] at hout
        exact Bool.false_ne_true hout
      | succ k =>
        rw [show done.length + (k + 1) = (w :: done).length + k from by
          simp only [List.length_cons]; omega] at hout ⊢
        exact ih (w :: done) js _ (by simpa using hr_eq)
          (hmapstep w rfl) hrf k (by simpa using hk) hout
    rw [if_pos hmatch] at hout
    cases k with
    | succ k =>
      rw [show done.length + (k + 1) =
        (⟨w.x, w.y, w.ht, overlayRows
          (if (w.x + w.y) % 2 ≠ 0 then b2 % 65536 else b1 % 65536)
          w.data, true⟩ :: done).length + k from by
          simp only [List.length_cons]; omega] at hout ⊢
      obtain ⟨A, B, C, D, E⟩ := ih
        (⟨w.x, w.y, w.ht, overlayRows
          (if (w.x + w.y) % 2 ≠ 0 then b2 % 65536 else b1 % 65536)
          w.data, true⟩ :: done)
        (js.eraseIdx (stepFwd js w.x w.y (stepBack js w.x c)))
        (stepFwd js w.x w.y (stepBack js w.x c))
        (by simpa using hr_eq) (hmapstep _ rfl) hrf k (by simpa using hk) hout
      exact ⟨A, B, C, (List.eraseIdx_sublist js _).subset D, E⟩
    | zero =>
      rw [Nat.add_zero] at hout ⊢
      rw [hw_eq]
      have hnc : backScan w done = true ∧ fwdScan w r = true := by
        have := hguard.2.1
        rw [no_close_wh, Bool.and_eq_true] at this
        exact this
      refine ⟨hguard.1, hguard.2.2, hlt, ?_, ?_⟩
      · have hpair : ((w.x, w.y) : Int × Int) =
            js.getD (stepFwd js w.x w.y (stepBack js w.x c)) (0, 0) :=
          Prod.ext_iff.mpr ⟨hmatch.2.1.symm, hmatch.2.2.symm⟩
        rw [hpair]
        exact getD_mem' js _ _ hmatch.1
      · intro i2 hi2 hne hclose
        rcases Nat.lt_or_ge i2 done.length with hi2lt | hi2ge
        · have hco := coordsHt_getD_of_map_eq hmap i2
            (by simp only [List.length_reverse]; omega)
          rw [getD_take' ws0 done.length i2 noWhite hi2lt] at hco
          have hdec : done.Pairwise (fun a b => b.x ≤ a.x) := by
            have hpw_take : (ws0.take done.length).Pairwise wLexLe :=
              hsorted.sublist (List.take_sublist _ _)
            have hpw_rev : done.reverse.Pairwise wLexLe :=
              pairwise_wLexLe_of_map_eq hmap hpw_take
            have := List.pairwise_reverse.mp hpw_rev
            exact this.imp (fun hab => by
              rcases hab with h | h
              · omega
              · omega)
          have hp_mem : done.reverse.getD i2 noWhite ∈ done := by
            have := getD_mem' done.reverse i2 noWhite
              (by simp only [List.length_reverse]; omega)
            exact List.mem_reverse.mp this
          have hfar := backScan_true_far done w hdec hnc.1
            (done.reverse.getD i2 noWhite) hp_mem
          exact hfar ⟨by omega, by omega, by omega, by omega⟩
        · have hi2gt : done.length < i2 := by
            rcases Nat.eq_or_lt_of_le hi2ge with he | hlt2
            · exact absurd he.symm hne
            · exact hlt2
          have hq_eq : ws0.getD i2 noWhite =
              r.getD (i2 - done.length - 1) noWhite := by
            rw [hr_eq, getD_drop']
            congr 1
            omega
          have hrlen : r.length = ws0.length - done.length - 1 := by
            rw [hr_eq, List.length_drop]
            omega
          have hq_mem : r.getD (i2 - done.length - 1) noWhite ∈ r :=
            getD_mem' _ _ _ (by omega)
          have hinc : r.Pairwise (fun a b => a.x ≤ b.x) := by
            have : (ws0.drop (done.length + 1)).Pairwise wLexLe :=
              hsorted.sublist (List.drop_sublist _ _)
            rw [← hr_eq] at this
            exact this.imp (fun hab => by
              rcases hab with h | h
              · omega
              · omega)
          have hfar := fwdScan_true_far r w hinc hnc.2
            (r.getD (i2 - done.length - 1) noWhite) hq_mem
          rw [hq_eq] at hclose
          exact hfar ⟨by omega, by omega, by omega, by omega⟩

/-! ## Pipeline invariants: sortedness and the hasJunction flag -/

theorem mem_insertWhite (w b : whiterec) :
    ∀ l : List whiterec, b ∈ insertWhite w l ↔ b = w ∨ b ∈ l := by
  intro l
  induction l with
  | nil => simp [insertWhite]
  | cons a r ih =>
    simp only [insertWhite]
    by_cases hc : w.x < a.x ∨ (w.x = a.x ∧ w.y < a.y)
    · rw [if_pos hc]
      simp [or_comm, or_assoc, or_left_comm]
    · rw [if_neg hc]
      simp only [List.mem_cons, ih]
      tauto

theorem insertWhite_pairwise (w : whiterec) :
    ∀ l : List whiterec, l.Pairwise wLexLe →
      (insertWhite w l).Pairwise wLexLe := by
  intro l
  induction l with
  | nil => intro _; simp [insertWhite, wLexLe]
  | cons a r ih =>
    intro h
    obtain ⟨ha, hr⟩ := List.pairwise_cons.mp h
    simp only [insertWhite]
    by_cases hc : w.x < a.x ∨ (w.x = a.x ∧ w.y < a.y)
    · rw [if_pos hc]
      refine List.pairwise_cons.mpr ⟨?_, h⟩
      intro b hb
      rcases List.mem_cons.mp hb with hb | hb
      · subst hb
        unfold wLexLe
        omega
      · have := ha b hb
        unfold wLexLe at *
        omega
    · rw [if_neg hc]
      refine List.pairwise_cons.mpr ⟨?_, ih hr⟩
      intro b hb
      rcases (mem_insertWhite w b r).mp hb with hb | hb
      · subst hb
        unfold wLexLe
        omega
      · exact ha b hb

theorem sortWhites_pairwise (l : List whiterec) :
    (sortWhites l).Pairwise wLexLe := by
  have hgen : ∀ (l acc : List whiterec), acc.Pairwise wLexLe →
      (l.foldl (fun acc w => insertWhite w acc) acc).Pairwise wLexLe := by
    intro l
    induction l with
    | nil => intro acc h; exact h
    | cons a r ih =>
      intro acc h
      exact ih (insertWhite a acc) (insertWhite_pairwise a acc h)
  exact hgen l [] List.Pairwise.nil

theorem mem_sortWhites (p : whiterec) (l : List whiterec) :
    p ∈ sortWhites l → p ∈ l := by
  have hgen : ∀ (l acc : List whiterec),
      p ∈ l.foldl (fun acc w => insertWhite w acc) acc →
      p ∈ acc ∨ p ∈ l := by
    intro l
    induction l with
    | nil => intro acc h; exact Or.inl h
    | cons a r ih =>
      intro acc h
      rcases ih (insertWhite a acc) h with h2 | h2
      · rcases (mem_insertWhite a p acc).mp h2 with h3 | h3
        · exact Or.inr (by rw [h3]; exact List.mem_cons_self a r)
        · exact Or.inl h3
      · exact Or.inr (List.mem_cons_of_mem a h2)
  intro h
  rcases hgen l [] h with h2 | h2
  · simp at h2
  · exact h2

theorem mergeAbsorb_snd_suffix :
    ∀ (r : List whiterec) (a : whiterec),
      ∃ k, (mergeAbsorb a r).2 = r.drop k := by
  intro r
  induction r with
  | nil => intro a; exact ⟨0, rfl⟩
  | cons b r2 ih =>
    intro a
    simp only [mergeAbsorb]
    by_cases h : sameSpot6 a b
    · rw [if_pos h]
      obtain ⟨k, hk⟩ := ih ⟨a.x, a.y, a.ht, mergeRows a.data b.data, a.hasj⟩
      exact ⟨k + 1, by simpa using hk⟩
    · rw [if_neg h]
      exact ⟨0, rfl⟩

theorem mem_mergeWhites :
    ∀ (n : Nat) (l : List whiterec), l.length ≤ n →
      ∀ p ∈ mergeWhites l, ∃ q ∈ l,
        p.x = q.x ∧ p.y = q.y ∧ p.ht = q.ht ∧ p.hasj = q.hasj := by
  intro n
  induction n with
  | zero =>
    intro l h p hp
    have : l = [] := List.length_eq_zero.mp (Nat.le_zero.mp h)
    subst this
    simp [mergeWhites, mergeLoopF] at hp
  | succ n ih =>
    intro l h p hp
    cases l with
    | nil => simp [mergeWhites, mergeLoopF] at hp
    | cons a r =>
      rw [mergeWhites_cons] at hp
      rcases List.mem_cons.mp hp with hp | hp
      · obtain ⟨h1, h2, h3, h4⟩ := mergeAbsorb_fst_fields r a
        exact ⟨a, List.mem_cons_self a r, by rw [hp, h1], by rw [hp, h2],
          by rw [hp, h3], by rw [hp, h4]⟩
      · obtain ⟨k, hk⟩ := mergeAbsorb_snd_suffix r a
        have hlen : (mergeAbsorb a r).2.length ≤ n := by
          have := mergeAbsorb_snd_length r a
          simp only [List.length_cons] at h
          omega
        obtain ⟨q, hq, hfields⟩ := ih (mergeAbsorb a r).2 hlen p hp
        refine ⟨q, ?_, hfields⟩
        rw [hk] at hq
        exact List.mem_cons_of_mem a ((List.drop_sublist k r).subset hq)

theorem wLexLe_congr {a a' b b' : whiterec}
    (hx : a.x = a'.x) (hy : a.y = a'.y) (hx2 : b.x = b'.x)
    (hy2 : b.y = b'.y) : wLexLe a b ↔ wLexLe a' b' := by
  unfold wLexLe
  rw [hx, hy, hx2, hy2]

theorem mergeWhites_pairwise :
    ∀ (n : Nat) (l : List whiterec), l.length ≤ n → l.Pairwise wLexLe →
      (mergeWhites l).Pairwise wLexLe := by
  intro n
  induction n with
  | zero =>
    intro l h _
    have : l = [] := List.length_eq_zero.mp (Nat.le_zero.mp h)
    subst this
    exact List.Pairwise.nil
  | succ n ih =>
    intro l h hp
    cases l with
    | nil => exact List.Pairwise.nil
    | cons a r =>
      rw [mergeWhites_cons]
      obtain ⟨ha, hr⟩ := List.pairwise_cons.mp hp
      obtain ⟨k, hk⟩ := mergeAbsorb_snd_suffix r a
      have hsub : List.Sublist (mergeAbsorb a r).2 r := by
        rw [hk]; exact List.drop_sublist k r
      have hlen : (mergeAbsorb a r).2.length ≤ n := by
        have := mergeAbsorb_snd_length r a
        simp only [List.length_cons] at h
        omega
      refine List.pairwise_cons.mpr ⟨?_, ih _ hlen (hr.sublist hsub)⟩
      intro q hq
      obtain ⟨q', hq', hqx, hqy, _, _⟩ :=
        mem_mergeWhites (mergeAbsorb a r).2.length _ (le_refl _) q hq
      obtain ⟨h1, h2, _, _⟩ := mergeAbsorb_fst_fields r a
      rw [wLexLe_congr h1 h2 hqx hqy]
      exact ha q' (hsub.subset hq')

def allFalseHasj (ws : List whiterec) : Prop := ∀ p ∈ ws, p.hasj = false

theorem add_white_hasj (x y ht : Int) (d : List Nat) (ws : List whiterec)
    (h : allFalseHasj ws) : allFalseHasj (add_white x y ht d ws) := by
  intro p hp
  rcases List.mem_append.mp hp with h2 | h2
  · exact h p h2
  · simp only [List.mem_singleton] at h2
    rw [h2]

theorem replace_white_2_hasj (tx ty x y ht : Int) (d : List Nat) :
    ∀ ws : List whiterec, allFalseHasj ws →
      allFalseHasj (replace_white_2 tx ty x y ht d ws) := by
  intro ws
  induction ws with
  | nil => intro h; exact h
  | cons w r ih =>
    intro h p hp
    rw [replace_white_2] at hp
    split at hp
    · rcases List.mem_cons.mp hp with h2 | h2
      · rw [h2]
        exact h w (List.mem_cons_self w r)
      · exact h p (List.mem_cons_of_mem w h2)
    · rcases List.mem_cons.mp hp with h2 | h2
      · rw [h2]
        exact h w (List.mem_cons_self w r)
      · exact ih (fun q hq => h q (List.mem_cons_of_mem w hq)) p h2

theorem applyOp_hasj (c : wallCall) (s : CState) (op : closeOp)
    (h : allFalseHasj s.whites) : allFalseHasj (applyOp c s op).whites := by
  cases op with
  | setH1 second v => exact h
  | setH2 second v => exact h
  | addW x y ht d => exact add_white_hasj x y ht d s.whites h
  | replW tx ty x y ht d => exact replace_white_2_hasj tx ty x y ht d s.whites h

theorem foldl_applyOp_hasj (c : wallCall) :
    ∀ (ops : List closeOp) (s : CState), allFalseHasj s.whites →
      allFalseHasj ((ops.foldl (applyOp c) s).whites) := by
  intro ops
  induction ops with
  | nil => intro s h; exact h
  | cons op r ih =>
    intro s h
    exact ih (applyOp c s op) (applyOp_hasj c s op h)

theorem oneClose0_hasj (c : wallCall) (s : CState) (i : Int)
    (h : allFalseHasj s.whites) : allFalseHasj (oneClose0 c s i).whites := by
  unfold oneClose0
  dsimp only
  split
  · exact h
  · split
    · exact replace_white_2_hasj _ _ _ _ _ _ _ h
    · exact add_white_hasj _ _ _ _ _ h

theorem oneClose2_hasj (c : wallCall) (s : CState) (i : Nat)
    (h : allFalseHasj s.whites) : allFalseHasj (oneClose2 c s i).whites := by
  unfold oneClose2
  dsimp only
  have hgen : ∀ (l : List Int) (ws : List whiterec), allFalseHasj ws →
      allFalseHasj (l.foldl (fun ws k =>
        if (s.walls.getD c.a noWall).h1 < 5 + 4 * k
        then add_white ((s.walls.getD c.a noWall).startx + 3 + 4 * k)
               ((s.walls.getD c.a noWall).starty - 4 - 4 * k) 4
               nepatchData ws
        else ws) ws) := by
    intro l
    induction l with
    | nil => intro ws h2; exact h2
    | cons a r ih =>
      intro ws h2
      rw [List.foldl_cons]
      apply ih
      split
      · exact add_white_hasj _ _ _ _ _ h2
      · exact h2
  exact hgen _ _ h

theorem one_close_hasj (e : ElidedRules) (c : wallCall) (s : CState)
    (h : allFalseHasj s.whites) : allFalseHasj (one_close e c s).whites := by
  unfold one_close
  dsimp only
  split
  · exact h
  split
  · split
    · exact h
    · exact oneClose0_hasj c s _ h
  split
  · exact h
  split
  · split
    · exact h
    · exact oneClose2_hasj c s _ h
  split
  · exact h
  split
  · exact foldl_applyOp_hasj c _ s h
  · exact h

theorem close_whites_hasj (e : ElidedRules) (ls : List linerec)
    (ws : List whiterec) (h : allFalseHasj ws) :
    allFalseHasj (close_whites e ls ws).whites := by
  unfold close_whites
  have hgen : ∀ (calls : List wallCall) (s : CState), allFalseHasj s.whites →
      allFalseHasj ((calls.foldl (fun s c => one_close e c s) s).whites) := by
    intro calls
    induction calls with
    | nil => intro s h2; exact h2
    | cons c r ih =>
      intro s h2
      exact ih (one_close e c s) (one_close_hasj e c s h2)
  exact hgen _ _ h

theorem wallWhites_hasj (l : linerec) : allFalseHasj (wallWhites l) := by
  intro p hp
  unfold wallWhites at hp
  rcases List.mem_append.mp hp with h | h
  · rcases List.mem_append.mp h with h2 | h2
    · cases hw : (whitepicts l.newtype).1 with
      | none => rw [hw] at h2; simp at h2
      | some d =>
        rw [hw] at h2
        simp only [List.mem_singleton] at h2
        rw [h2]
    · cases hw : (whitepicts l.newtype).2 with
      | none => rw [hw] at h2; simp at h2
      | some d =>
        rw [hw] at h2
        simp only [List.mem_singleton] at h2
        rw [h2]
  · split at h
    · simp only [List.mem_singleton] at h
      rw [h]
    · split at h
      · rcases List.mem_cons.mp h with h2 | h2
        · rw [h2]
        · simp only [List.mem_singleton] at h2
          rw [h2]
      · split at h
        · simp only [List.mem_singleton] at h
          rw [h]
        · simp at h

theorem norm_whites_hasj (ls : List linerec) :
    allFalseHasj (norm_whites ls) := by
  induction ls with
  | nil => intro p hp; simp [norm_whites] at hp
  | cons l r ih =>
    intro p hp
    rcases List.mem_append.mp hp with h | h
    · exact wallWhites_hasj l p h
    · exact ih p h

theorem sortJunctions_length (js : List (Int × Int)) :
    (sortJunctions js).length = js.length := by
  have hins : ∀ (p : Int × Int) (l : List (Int × Int)),
      (insertJunction p l).length = l.length + 1 := by
    intro p l
    induction l with
    | nil => rfl
    | cons a r ih =>
      rw [insertJunction]
      split
      · simp
      · simpa using ih
  have hgen : ∀ (l acc : List (Int × Int)),
      (l.foldl (fun acc p => insertJunction p acc) acc).length =
        acc.length + l.length := by
    intro l
    induction l with
    | nil => intro acc; simp
    | cons a r ih =>
      intro acc
      rw [List.foldl_cons, ih, hins]
      simp only [List.length_cons]
      omega
  have := hgen js []
  simpa [sortJunctions] using this

theorem hmAux_map_coords (ww : Int) (b1 b2 : Nat) :
    ∀ (rest done : List whiterec) (js : List (Int × Int)) (c : Nat),
      (hmAux ww b1 b2 done rest js c).1.map coordsHt =
        done.reverse.map coordsHt ++ rest.map coordsHt := by
  intro rest
  induction rest with
  | nil => intro done js c; simp [hmAux]
  | cons w r ih =>
    intro done js c
    simp only [hmAux]
    by_cases hlt : w.x < ww - 8
    swap
    · rw [if_neg hlt]
      simp
    rw [if_pos hlt]
    by_cases hguard : w.ht = 6 ∧ no_close_wh done w r = true ∧ w.x > 8
    swap
    · rw [if_neg hguard, ih]
      simp [coordsHt]
    rw [if_pos hguard]
    by_cases hmatch : stepFwd js w.x w.y (stepBack js w.x c) < js.length ∧
        (js.getD (stepFwd js w.x w.y (stepBack js w.x c)) (0, 0)).1 = w.x ∧
        (js.getD (stepFwd js w.x w.y (stepBack js w.x c)) (0, 0)).2 = w.y
    swap
    · rw [if_neg hmatch, ih]
      simp [coordsHt]
    rw [if_pos hmatch, ih]
    simp [coordsHt]

theorem hmAux_length (ww : Int) (b1 b2 : Nat) (rest done : List whiterec)
    (js : List (Int × Int)) (c : Nat) :
    (hmAux ww b1 b2 done rest js c).1.length = done.length + rest.length := by
  have h := congrArg List.length (hmAux_map_coords ww b1 b2 rest done js c)
  simpa using h

/-- C5: every junction is consumed by at most one crosshatch overlay.  After
the full preparation pipeline no two distinct pieces with the hasJunction
flag set share coordinates, and the surviving junction count plus the
overlaid piece count equals the junction count produced by the junction
finder, so each overlay removed exactly one junction. -/
theorem junction_consumed_once (e : ElidedRules) (ww : Int) (b1 b2 : Nat)
    (ls : List linerec) :
    (∀ k1 k2 : Nat, k1 < (init_walls e ww b1 b2 ls).whites.length →
      k2 < (init_walls e ww b1 b2 ls).whites.length → k1 ≠ k2 →
      ((init_walls e ww b1 b2 ls).whites.getD k1 noWhite).hasj = true →
      ((init_walls e ww b1 b2 ls).whites.getD k2 noWhite).hasj = true →
      ¬(((init_walls e ww b1 b2 ls).whites.getD k1 noWhite).x =
          ((init_walls e ww b1 b2 ls).whites.getD k2 noWhite).x ∧
        ((init_walls e ww b1 b2 ls).whites.getD k1 noWhite).y =
          ((init_walls e ww b1 b2 ls).whites.getD k2 noWhite).y)) ∧
    (init_walls e ww b1 b2 ls).junctions.length +
        countHasj (init_walls e ww b1 b2 ls).whites =
      (findJunctions (endpoints ls)).length := by
  have hws0 : allFalseHasj (mergeWhites (sortWhites
      (close_whites e ls (norm_whites ls)).whites)) := by
    intro p hp
    obtain ⟨q, hq, _, _, _, hqj⟩ := mem_mergeWhites _ _ (le_refl _) p hp
    rw [hqj]
    exact close_whites_hasj e ls (norm_whites ls) (norm_whites_hasj ls) q
      (mem_sortWhites q _ hq)
  have hsorted : (mergeWhites (sortWhites
      (close_whites e ls (norm_whites ls)).whites)).Pairwise wLexLe :=
    mergeWhites_pairwise _ _ (le_refl _) (sortWhites_pairwise _)
  have hwhites : (init_walls e ww b1 b2 ls).whites =
      (hmAux ww b1 b2 []
        (mergeWhites (sortWhites (close_whites e ls (norm_whites ls)).whites))
        (sortJunctions (findJunctions (endpoints ls))) 0).1 := rfl
  have hjs : (init_walls e ww b1 b2 ls).junctions =
      (hmAux ww b1 b2 []
        (mergeWhites (sortWhites (close_whites e ls (norm_whites ls)).whites))
        (sortJunctions (findJunctions (endpoints ls))) 0).2.1 := rfl
  constructor
  · intro k1 k2 hk1 hk2 hne hj1 hj2 hcontra
    rw [hwhites, hmAux_length] at hk1 hk2
    simp only [List.length_nil, Nat.zero_add] at hk1 hk2
    have hmapout := hmAux_map_coords ww b1 b2
      (mergeWhites (sortWhites (close_whites e ls (norm_whites ls)).whites))
      [] (sortJunctions (findJunctions (endpoints ls))) 0
    simp only [List.reverse_nil, List.map_nil, List.nil_append] at hmapout
    have hlenout : (hmAux ww b1 b2 []
        (mergeWhites (sortWhites (close_whites e ls (norm_whites ls)).whites))
        (sortJunctions (findJunctions (endpoints ls))) 0).1.length =
        (mergeWhites (sortWhites
          (close_whites e ls (norm_whites ls)).whites)).length := by
      rw [hmAux_length]; simp
    have hco1 := coordsHt_getD_of_map_eq hmapout k1 (by rw [hlenout]; exact hk1)
    have hco2 := coordsHt_getD_of_map_eq hmapout k2 (by rw [hlenout]; exact hk2)
    have hsound := hmAux_hasj_sound ww b1 b2
      (mergeWhites (sortWhites (close_whites e ls (norm_whites ls)).whites))
      hsorted
      (mergeWhites (sortWhites (close_whites e ls (norm_whites ls)).whites))
      [] (sortJunctions (findJunctions (endpoints ls))) 0 (by simp) (by simp)
      hws0 k1 hk1 (by
        rw [hwhites] at hj1
        simpa using hj1)
    obtain ⟨_, _, _, _, hiso⟩ := hsound
    have hfar := hiso k2 hk2
      (by simp only [List.length_nil, Nat.zero_add]; exact hne.symm)
    simp only [List.length_nil, Nat.zero_add] at hfar
    rw [hwhites] at hcontra
    have hx1 := hco1.1
    have hy1 := hco1.2.1
    have hx2 := hco2.1
    have hy2 := hco2.2.1
    apply hfar
    obtain ⟨hcx, hcy⟩ := hcontra
    refine ⟨?_, ?_, ?_, ?_⟩ <;> omega
  · rw [hwhites, hjs]
    have hcount := hmAux_count ww b1 b2
      (mergeWhites (sortWhites (close_whites e ls (norm_whites ls)).whites))
      [] (sortJunctions (findJunctions (endpoints ls))) 0 hws0
    rw [hcount]
    rw [sortJunctions_length]
    simp [countHasj]

def c4WallESE : linerec := ⟨5, 10, 55, 35, 50, 4, 0, 0⟩

def c4WallS : linerec := ⟨9, 10, 9, 16, 6, 1, 0, 0⟩

/-- C4 (counterexample): after full preparation of an ESE wall starting at
(5,10) and a South wall from (9,10) to (9,16) in a world of width 100, the
piece at (9,10) has height 6, no other piece within 3 pixels on both axes,
and sits exactly on the junction (9,10), which is never consumed — yet its
hasJunction flag stays false and its bitmap stays generictop: the cursor
scan stops at the junction (5,10), which shares its y, and never reaches
(9,10).  This refutes the claimed "if and only if". -/
theorem c4_counterexample :
    (init_walls noElided 100 0 0 [c4WallESE, c4WallS]).junctions =
      [(5, 10), (9, 10)] ∧
    (init_walls noElided 100 0 0 [c4WallESE, c4WallS]).whites.getD 0 noWhite =
      ⟨9, 10, 6, generictop, false⟩ ∧
    (∀ q ∈ (init_walls noElided 100 0 0 [c4WallESE, c4WallS]).whites,
      ¬(q.x = 9 ∧ q.y = 10) →
      ¬(9 - 3 ≤ q.x ∧ q.x ≤ 9 + 3 ∧ 10 - 3 ≤ q.y ∧ q.y ≤ 10 + 3)) := by
  decide

/-! ## The cursor walk of white_hash_merge -/

theorem stepBack_le (js : List (Int × Int)) (wx : Int) :
    ∀ c : Nat, stepBack js wx c ≤ c := by
  intro c
  induction c with
  | zero => exact le_refl 0
  | succ c ih =>
    rw [stepBack]
    split
    · omega
    · exact le_refl _

theorem stepBack_spec (js : List (Int × Int)) (wx : Int) :
    ∀ c : Nat, stepBack js wx c = 0 ∨ jxOf js (stepBack js wx c) < wx := by
  intro c
  induction c with
  | zero => exact Or.inl rfl
  | succ c ih =>
    rw [stepBack]
    split
    · exact ih
    · rename_i h
      exact Or.inr (by omega)

theorem stepFwdGo_le (wx wy : Int) :
    ∀ (l : List (Int × Int)) (c : Nat), stepFwdGo wx wy l c ≤ c + l.length := by
  intro l
  induction l with
  | nil => intro c; simp [stepFwdGo]
  | cons j r ih =>
    intro c
    rw [stepFwdGo]
    split
    · have := ih (c + 1)
      simp only [List.length_cons]
      omega
    · simp only [List.length_cons]
      omega

theorem stepFwd_le_length (js : List (Int × Int)) (wx wy : Int) (c : Nat)
    (hc : c ≤ js.length) : stepFwd js wx wy c ≤ js.length := by
  unfold stepFwd
  have h := stepFwdGo_le wx wy (js.drop c) c
  rw [List.length_drop] at h
  omega

theorem stepFwd_reach_aux (js : List (Int × Int)) (wx wy : Int) :
    ∀ (n c t : Nat), t = c + n → t < js.length →
      (∀ u, c ≤ u → u < t →
        ((js.getD u (0, 0)).1 ≤ wx ∧ (js.getD u (0, 0)).2 ≠ wy)) →
      ¬((js.getD t (0, 0)).1 ≤ wx ∧ (js.getD t (0, 0)).2 ≠ wy) →
      stepFwd js wx wy c = t := by
  intro n
  induction n with
  | zero =>
    intro c t hct ht _ hstop
    have hce : t = c := by omega
    subst hce
    unfold stepFwd
    rw [List.drop_eq_getElem_cons ht]
    rw [stepFwdGo]
    rw [if_neg (by
      rw [getD_eq_getElem' js t (0, 0) ht] at hstop
      exact hstop)]
  | succ n ih =>
    intro c t hct ht hwalk hstop
    have hclen : c < js.length := by omega
    have hcond := hwalk c (le_refl c) (by omega)
    unfold stepFwd
    rw [List.drop_eq_getElem_cons hclen]
    rw [stepFwdGo]
    rw [if_pos (by
      rw [getD_eq_getElem' js c (0, 0) hclen] at hcond
      exact hcond)]
    have hrec := ih (c + 1) t (by omega) ht
      (fun u hu1 hu2 => hwalk u (by omega) hu2) hstop
    unfold stepFwd at hrec
    exact hrec

theorem stepFwd_reach (js : List (Int × Int)) (wx wy : Int) (c t : Nat)
    (hc : c ≤ t) (ht : t < js.length)
    (hwalk : ∀ u, c ≤ u → u < t →
      ((js.getD u (0, 0)).1 ≤ wx ∧ (js.getD u (0, 0)).2 ≠ wy))
    (hstop : ¬((js.getD t (0, 0)).1 ≤ wx ∧ (js.getD t (0, 0)).2 ≠ wy)) :
    stepFwd js wx wy c = t :=
  stepFwd_reach_aux js wx wy (t - c) c t (by omega) ht hwalk hstop

theorem sorted_x_mono (l : List whiterec) (h : l.Pairwise wLexLe)
    (i j : Nat) (hij : i ≤ j) (hj : j < l.length) :
    (l.getD i noWhite).x ≤ (l.getD j noWhite).x := by
  rcases Nat.eq_or_lt_of_le hij with he | hlt
  · subst he; exact le_refl _
  · have hp := List.pairwise_iff_getElem.mp h i j (by omega) hj hlt
    rw [getD_eq_getElem' l i noWhite (by omega), getD_eq_getElem' l j noWhite hj]
    rcases hp with hp | hp
    · omega
    · omega

theorem jsorted_mono (js : List (Int × Int))
    (h : js.Pairwise (fun a b => a.1 ≤ b.1)) (i j : Nat) (hij : i ≤ j)
    (hj : j < js.length) :
    (js.getD i (0, 0)).1 ≤ (js.getD j (0, 0)).1 := by
  rcases Nat.eq_or_lt_of_le hij with he | hlt
  · subst he; exact le_refl _
  · have hp := List.pairwise_iff_getElem.mp h i j (by omega) hj hlt
    rw [getD_eq_getElem' js i (0, 0) (by omega),
      getD_eq_getElem' js j (0, 0) hj]
    exact hp

theorem nodup_of_jSep (js : List (Int × Int)) (h : js.Pairwise jSep) :
    js.Nodup :=
  h.imp (fun {a b} hab => by
    intro he
    subst he
    exact hab ⟨by omega, by omega, by omega, by omega⟩)

theorem mem_insertJunction (p q : Int × Int) :
    ∀ l : List (Int × Int), q ∈ insertJunction p l → q = p ∨ q ∈ l := by
  intro l
  induction l with
  | nil => intro h; exact Or.inl (by simpa [insertJunction] using h)
  | cons a r ih =>
    intro h
    rw [insertJunction] at h
    split at h
    · rcases List.mem_cons.mp h with h | h
      · exact Or.inl h
      · exact Or.inr h
    · rcases List.mem_cons.mp h with h | h
      · exact Or.inr (by simp [h])
      · rcases ih h with h | h
        · exact Or.inl h
        · exact Or.inr (by simp [h])

theorem insertJunction_perm (p : Int × Int) :
    ∀ l : List (Int × Int), (insertJunction p l).Perm (p :: l) := by
  intro l
  induction l with
  | nil => exact List.Perm.refl _
  | cons a r ih =>
    rw [insertJunction]
    split
    · exact List.Perm.refl _
    · exact ((ih.cons a).trans (List.Perm.swap p a r))

theorem sortJunctions_perm_aux :
    ∀ (js acc : List (Int × Int)),
      (js.foldl (fun acc p => insertJunction p acc) acc).Perm (js ++ acc) := by
  intro js
  induction js with
  | nil => intro acc; exact List.Perm.refl _
  | cons p r ih =>
    intro acc
    simp only [List.foldl_cons, List.cons_append]
    exact ((ih (insertJunction p acc)).trans
      ((List.Perm.append_left r (insertJunction_perm p acc)).trans
        List.perm_middle))

theorem sortJunctions_perm (js : List (Int × Int)) :
    (sortJunctions js).Perm js := by
  have h := sortJunctions_perm_aux js []
  simpa [sortJunctions] using h

theorem insertJunction_pairwise (p : Int × Int) :
    ∀ l : List (Int × Int), l.Pairwise (fun a b => a.1 ≤ b.1) →
      (insertJunction p l).Pairwise (fun a b => a.1 ≤ b.1) := by
  intro l
  induction l with
  | nil => intro _; simp [insertJunction]
  | cons a r ih =>
    intro h
    rw [List.pairwise_cons] at h
    rw [insertJunction]
    split
    · rename_i hlt
      rw [List.pairwise_cons]
      refine ⟨?_, List.pairwise_cons.mpr h⟩
      intro q hq
      rcases List.mem_cons.mp hq with hq | hq
      · subst hq; omega
      · have := h.1 q hq
        omega
    · rename_i hge
      rw [List.pairwise_cons]
      refine ⟨?_, ih h.2⟩
      intro q hq
      rcases mem_insertJunction p q r hq with hq | hq
      · subst hq; omega
      · exact h.1 q hq

theorem sortJunctions_pairwise_aux :
    ∀ (js acc : List (Int × Int)),
      acc.Pairwise (fun a b => a.1 ≤ b.1) →
      (js.foldl (fun acc p => insertJunction p acc) acc).Pairwise
        (fun a b => a.1 ≤ b.1) := by
  intro js
  induction js with
  | nil => intro acc h; exact h
  | cons p r ih =>
    intro acc h
    simp only [List.foldl_cons]
    exact ih _ (insertJunction_pairwise p acc h)

theorem sortJunctions_sorted (js : List (Int × Int)) :
    (sortJunctions js).Pairwise (fun a b => a.1 ≤ b.1) :=
  sortJunctions_pairwise_aux js [] (by simp)

theorem jSep_symmetric : Symmetric jSep := by
  intro a b h
  unfold jSep at h ⊢
  omega

theorem sortJunctions_pairwise_jSep (js : List (Int × Int))
    (h : js.Pairwise jSep) : (sortJunctions js).Pairwise jSep :=
  ((sortJunctions_perm js).pairwise_iff (fun hab => jSep_symmetric hab)).mpr h

theorem hmAux_hasj_complete (ww : Int) (b1 b2 : Nat) (ws0 : List whiterec)
    (js0 : List (Int × Int)) (hsorted : ws0.Pairwise wLexLe)
    (hjsorted : js0.Pairwise (fun a b => a.1 ≤ b.1))
    (hjsep : js0.Pairwise jSep) :
    ∀ (rest done : List whiterec) (js : List (Int × Int)) (c : Nat),
      rest = ws0.drop done.length →
      done.reverse.map coordsHt = (ws0.take done.length).map coordsHt →
      js.Sublist js0 →
      c ≤ js.length →
      (∀ j ∈ js0, j ∉ js → ∃ k2, k2 < done.length ∧
        (done.reverse.getD k2 noWhite).hasj = true ∧
        (done.reverse.getD k2 noWhite).x = j.1 ∧
        (done.reverse.getD k2 noWhite).y = j.2) →
      ∀ k, k < rest.length →
      (ws0.getD (done.length + k) noWhite).ht = 6 →
      8 < (ws0.getD (done.length + k) noWhite).x →
      (ws0.getD (done.length + k) noWhite).x < ww - 8 →
      (ws0.getD (done.length + k) noWhite).x ≤ 20000 →
      ((ws0.getD (done.length + k) noWhite).x,
        (ws0.getD (done.length + k) noWhite).y) ∈ js0 →
      (∀ j ∈ js0, j.2 = (ws0.getD (done.length + k) noWhite).y →
        (ws0.getD (done.length + k) noWhite).x ≤ j.1) →
      (∀ i2, i2 < ws0.length → i2 ≠ done.length + k →
        ¬((ws0.getD (done.length + k) noWhite).x - 2 ≤
            (ws0.getD i2 noWhite).x ∧
          (ws0.getD i2 noWhite).x ≤
            (ws0.getD (done.length + k) noWhite).x + 2 ∧
          (ws0.getD (done.length + k) noWhite).y - 2 ≤
            (ws0.getD i2 noWhite).y ∧
          (ws0.getD i2 noWhite).y ≤
            (ws0.getD (done.length + k) noWhite).y + 2)) →
      ((hmAux ww b1 b2 done rest js c).1.getD (done.length + k)
          noWhite).hasj = true := by
  intro rest
  induction rest with
  | nil => intro done js c _ _ _ _ _ k hk; simp at hk
  | cons w r ih =>
    intro done js c hrest hmap hsub hc hacct k hk hht hx8 hxww hx20k hmem
      hleast hiso
    have hn_lt : done.length < ws0.length := by
      by_contra hge
      push_neg at hge
      rw [List.drop_eq_nil_of_le hge] at hrest
      simp at hrest
    have hw_eq : ws0.getD done.length noWhite = w := by
      have h0 := getD_drop' ws0 done.length 0 noWhite
      rw [← hrest] at h0
      simpa using h0.symm
    have hr_eq : r = ws0.drop (done.length + 1) := by
      have h1 := List.drop_drop 1 done.length ws0
      rw [← hrest] at h1
      simpa using h1
    have hlen2 : ws0.length = done.length + r.length + 1 := by
      have hl := congrArg List.length hrest
      rw [List.length_drop] at hl
      simp only [List.length_cons] at hl
      omega
    have hidx : done.length + k < ws0.length := by
      simp only [List.length_cons] at hk
      omega
    have hmapstep : ∀ w' : whiterec, coordsHt w' = coordsHt w →
        (w' :: done).reverse.map coordsHt =
          (ws0.take (done.length + 1)).map coordsHt := by
      intro w' hco
      rw [List.reverse_cons, List.map_append, hmap, List.take_succ]
      rw [List.getElem?_eq_getElem hn_lt]
      simp only [List.map_cons, List.map_nil, Option.toList_some]
      rw [← getD_eq_getElem' ws0 done.length noWhite hn_lt, hw_eq]
      simp [hco]
    have hxw_le : w.x ≤ (ws0.getD (done.length + k) noWhite).x := by
      have := sorted_x_mono ws0 hsorted done.length (done.length + k)
        (by omega) hidx
      rw [hw_eq] at this
      exact this
    have hlt : w.x < ww - 8 := by omega
    simp only [hmAux]
    rw [if_pos hlt]
    cases k with
    | zero =>
      rw [Nat.add_zero] at hidx hht hx8 hxww hx20k hmem hleast hiso ⊢
      rw [hw_eq] at hht hx8 hxww hx20k hmem hleast hiso
      have hdone_co : ∀ p ∈ done, ∃ i2, i2 < done.length ∧
          (ws0.getD i2 noWhite).x = p.x ∧ (ws0.getD i2 noWhite).y = p.y := by
        intro p hp
        obtain ⟨i2, hi2, hpe⟩ :=
          List.mem_iff_getElem.mp (List.mem_reverse.mpr hp)
        rw [List.length_reverse] at hi2
        have hco := coordsHt_getD_of_map_eq hmap i2
          (by simp only [List.length_reverse]; omega)
        rw [getD_take' ws0 done.length i2 noWhite hi2] at hco
        have hg : done.reverse.getD i2 noWhite = p := by
          rw [getD_eq_getElem' _ i2 _ (by
            simp only [List.length_reverse]; omega)]
          exact hpe
        rw [hg] at hco
        exact ⟨i2, hi2, hco.1.symm, hco.2.1.symm⟩
      have hr_co : ∀ p ∈ r, ∃ i2, done.length < i2 ∧ i2 < ws0.length ∧
          (ws0.getD i2 noWhite).x = p.x ∧ (ws0.getD i2 noWhite).y = p.y := by
        intro p hp
        obtain ⟨k2, hk2, hpe⟩ := List.mem_iff_getElem.mp hp
        have hg := getD_drop' ws0 (done.length + 1) k2 noWhite
        rw [← hr_eq] at hg
        rw [getD_eq_getElem' r k2 _ hk2, hpe] at hg
        exact ⟨done.length + 1 + k2, by omega, by omega, hg.symm ▸ rfl,
          hg.symm ▸ rfl⟩
      have hback : backScan w done = true := by
        apply backScan_far_true
        · intro p hp
          obtain ⟨i2, hi2, hpx, hpy⟩ := hdone_co p hp
          have := sorted_x_mono ws0 hsorted i2 done.length (by omega) hn_lt
          rw [hw_eq] at this
          omega
        · intro p hp
          obtain ⟨i2, hi2, hpx, hpy⟩ := hdone_co p hp
          have hfar := hiso i2 (by omega) (by omega)
          intro hcl
          exact hfar ⟨by omega, by omega, by omega, by omega⟩
      have hfwd : fwdScan w r = true := by
        apply fwdScan_far_true
        · intro p hp
          obtain ⟨i2, hgt, hlt2, hpx, hpy⟩ := hr_co p hp
          have := sorted_x_mono ws0 hsorted done.length i2 (by omega) hlt2
          rw [hw_eq] at this
          omega
        · intro p hp
          obtain ⟨i2, hgt, hlt2, hpx, hpy⟩ := hr_co p hp
          have hfar := hiso i2 hlt2 (by omega)
          intro hcl
          exact hfar ⟨by omega, by omega, by omega, by omega⟩
      have hguard : w.ht = 6 ∧ no_close_wh done w r = true ∧ w.x > 8 :=
        ⟨hht, by rw [no_close_wh, hback, hfwd]; rfl, hx8⟩
      rw [if_pos hguard]
      have hJ_in : ((w.x, w.y) : Int × Int) ∈ js := by
        by_contra hnin
        obtain ⟨k2, hk2, hhj, hhx, hhy⟩ := hacct (w.x, w.y) hmem hnin
        have hco := coordsHt_getD_of_map_eq hmap k2
          (by simp only [List.length_reverse]; omega)
        rw [getD_take' ws0 done.length k2 noWhite hk2] at hco
        have hfar := hiso k2 (by omega) (by omega)
        apply hfar
        have h1 : (ws0.getD k2 noWhite).x = w.x := by
          rw [← hco.1, hhx]
        have h2 : (ws0.getD k2 noWhite).y = w.y := by
          rw [← hco.2.1, hhy]
        exact ⟨by omega, by omega, by omega, by omega⟩
      obtain ⟨t, htlt, hte⟩ := List.mem_iff_getElem.mp hJ_in
      have hjs_sorted : js.Pairwise (fun a b : Int × Int => a.1 ≤ b.1) :=
        hjsorted.sublist hsub
      have hjs_sep : js.Pairwise jSep := hjsep.sublist hsub
      have hnd : js.Nodup := nodup_of_jSep js hjs_sep
      have htx : (js.getD t (0, 0)).1 = w.x := by
        rw [getD_eq_getElem' js t _ htlt, hte]
      have hty : (js.getD t (0, 0)).2 = w.y := by
        rw [getD_eq_getElem' js t _ htlt, hte]
      have hc1_le : stepBack js w.x c ≤ c := stepBack_le js w.x c
      have hc1_t : stepBack js w.x c ≤ t := by
        rcases stepBack_spec js w.x c with h0 | hjx
        · omega
        · by_contra hgt
          push_neg at hgt
          rcases Nat.lt_or_ge (stepBack js w.x c) js.length with hlt2 | hge2
          · have hmono := jsorted_mono js hjs_sorted t (stepBack js w.x c)
              (by omega) hlt2
            rw [htx] at hmono
            simp only [jxOf] at hjx
            rw [if_pos hlt2] at hjx
            omega
          · simp only [jxOf] at hjx
            rw [if_neg (by omega)] at hjx
            omega
      have hreach : stepFwd js w.x w.y (stepBack js w.x c) = t := by
        apply stepFwd_reach js w.x w.y (stepBack js w.x c) t hc1_t htlt
        · intro u hu1 hu2
          have hmono := jsorted_mono js hjs_sorted u t (by omega) htlt
          rw [htx] at hmono
          refine ⟨hmono, ?_⟩
          intro hyeq
          have humem : js.getD u (0, 0) ∈ js := getD_mem' js u _ (by omega)
          have h0mem : js.getD u (0, 0) ∈ js0 := hsub.subset humem
          have hxe := hleast (js.getD u (0, 0)) h0mem hyeq
          have hueq : js.getD u (0, 0) = js.getD t (0, 0) :=
            Prod.ext_iff.mpr ⟨by omega, by rw [hty]; exact hyeq⟩
          rw [getD_eq_getElem' js u _ (by omega),
            getD_eq_getElem' js t _ htlt] at hueq
          have := (List.Nodup.getElem_inj_iff hnd).mp hueq
          omega
        · intro hcond
          exact hcond.2 hty
      rw [hreach]
      rw [if_pos ⟨htlt, htx, hty⟩]
      rw [hmAux_getD_done ww b1 b2 r _ _ _ done.length (by simp)]
      rw [List.reverse_cons, List.getD_append_right _ _ _ _ (by simp),
        (by simp : (done.reverse).length = done.length)]
      simp only [Nat.sub_self, List.getD_cons_zero]
    | succ k =>
      have hacct_skip : ∀ j ∈ js0, j ∉ js → ∃ k2, k2 < (w :: done).length ∧
          ((w :: done).reverse.getD k2 noWhite).hasj = true ∧
          ((w :: done).reverse.getD k2 noWhite).x = j.1 ∧
          ((w :: done).reverse.getD k2 noWhite).y = j.2 := by
        intro j hj hnj
        obtain ⟨k2, hk2, h1, h2, h3⟩ := hacct j hj hnj
        refine ⟨k2, by simp only [List.length_cons]; omega, ?_, ?_, ?_⟩ <;>
          (rw [List.reverse_cons, List.getD_append _ _ _ _
            (by simp only [List.length_reverse]; omega)]; assumption)
      by_cases hguard : w.ht = 6 ∧ no_close_wh done w r = true ∧ w.x > 8
      swap
      · rw [if_neg hguard]
        have hidx_eq : done.length + (k + 1) = (w :: done).length + k := by
          simp only [List.length_cons]; omega
        rw [hidx_eq] at hht hx8 hxww hx20k hmem hleast hiso ⊢
        exact ih (w :: done) js c (by simpa using hr_eq) (hmapstep w rfl)
          hsub hc hacct_skip k (by simpa using hk) hht hx8 hxww hx20k hmem
          hleast hiso
      rw [if_pos hguard]
      by_cases hmatch : stepFwd js w.x w.y (stepBack js w.x c) < js.length ∧
          (js.getD (stepFwd js w.x w.y (stepBack js w.x c)) (0, 0)).1 = w.x ∧
          (js.getD (stepFwd js w.x w.y (stepBack js w.x c)) (0, 0)).2 = w.y
      swap
      · rw [if_neg hmatch]
        have hc2 : stepFwd js w.x w.y (stepBack js w.x c) ≤ js.length :=
          stepFwd_le_length js w.x w.y _ (by
            have := stepBack_le js w.x c
            omega)
        have hidx_eq : done.length + (k + 1) = (w :: done).length + k := by
          simp only [List.length_cons]; omega
        rw [hidx_eq] at hht hx8 hxww hx20k hmem hleast hiso ⊢
        exact ih (w :: done) js _ (by simpa using hr_eq) (hmapstep w rfl)
          hsub hc2 hacct_skip k (by simpa using hk) hht hx8 hxww hx20k hmem
          hleast hiso
      rw [if_pos hmatch]
      have herase : (js.eraseIdx
          (stepFwd js w.x w.y (stepBack js w.x c))).length =
          js.length - 1 := by
        rw [List.length_eraseIdx]
        rw [if_pos hmatch.1]
      have hacct_ov : ∀ j ∈ js0,
          j ∉ js.eraseIdx (stepFwd js w.x w.y (stepBack js w.x c)) →
          ∃ k2, k2 < (⟨w.x, w.y, w.ht,
              overlayRows (if (w.x + w.y) % 2 ≠ 0 then b2 % 65536
                else b1 % 65536) w.data, true⟩ :: done).length ∧
            ((⟨w.x, w.y, w.ht,
              overlayRows (if (w.x + w.y) % 2 ≠ 0 then b2 % 65536
                else b1 % 65536) w.data, true⟩ ::
                done).reverse.getD k2 noWhite).hasj = true ∧
            ((⟨w.x, w.y, w.ht,
              overlayRows (if (w.x + w.y) % 2 ≠ 0 then b2 % 65536
                else b1 % 65536) w.data, true⟩ ::
                done).reverse.getD k2 noWhite).x = j.1 ∧
            ((⟨w.x, w.y, w.ht,
              overlayRows (if (w.x + w.y) % 2 ≠ 0 then b2 % 65536
                else b1 % 65536) w.data, true⟩ ::
                done).reverse.getD k2 noWhite).y = j.2 := by
        intro j hj hnj
        by_cases hjin : j ∈ js
        · have hje := eq_getD_of_not_mem_eraseIdx js
            (stepFwd js w.x w.y (stepBack js w.x c)) j (0, 0) hjin hnj
          have hj1 : j.1 = w.x := by
            rw [hje.2]
            exact hmatch.2.1
          have hj2 : j.2 = w.y := by
            rw [hje.2]
            exact hmatch.2.2
          refine ⟨done.length, by simp only [List.length_cons]; omega,
            ?_, ?_, ?_⟩
          · rw [List.reverse_cons, List.getD_append_right _ _ _ _ (by simp),
              (by simp : (done.reverse).length = done.length)]
            simp only [Nat.sub_self, List.getD_cons_zero]
          · rw [List.reverse_cons, List.getD_append_right _ _ _ _ (by simp),
              (by simp : (done.reverse).length = done.length)]
            simp only [Nat.sub_self, List.getD_cons_zero]
            rw [hj1]
          · rw [List.reverse_cons, List.getD_append_right _ _ _ _ (by simp),
              (by simp : (done.reverse).length = done.length)]
            simp only [Nat.sub_self, List.getD_cons_zero]
            rw [hj2]
        · obtain ⟨k2, hk2, h1, h2, h3⟩ := hacct j hj hjin
          refine ⟨k2, by simp only [List.length_cons]; omega, ?_, ?_, ?_⟩ <;>
            (rw [List.reverse_cons, List.getD_append _ _ _ _
              (by simp only [List.length_reverse]; omega)]; assumption)
      have hidx_eq : done.length + (k + 1) = (⟨w.x, w.y, w.ht,
          overlayRows (if (w.x + w.y) % 2 ≠ 0 then b2 % 65536
            else b1 % 65536) w.data, true⟩ :: done).length + k := by
        simp only [List.length_cons]; omega
      rw [hidx_eq] at hht hx8 hxww hx20k hmem hleast hiso ⊢
      exact ih (⟨w.x, w.y, w.ht,
          overlayRows (if (w.x + w.y) % 2 ≠ 0 then b2 % 65536
            else b1 % 65536) w.data, true⟩ :: done)
        (js.eraseIdx (stepFwd js w.x w.y (stepBack js w.x c)))
        (stepFwd js w.x w.y (stepBack js w.x c))
        (by simpa using hr_eq) (hmapstep _ rfl)
        ((List.eraseIdx_sublist js _).trans hsub)
        (by omega) hacct_ov k (by simpa using hk) hht hx8 hxww hx20k hmem
        hleast hiso

/-- C4 (corrected): a white piece of the prepared state carries the junction
overlay (hasj = true, crosshatch applied) if — and, under three extra
provisos the original claim omits, only if — it has height 6, its x lies
strictly between 8 and worldwidth-8, its coordinates are exactly a computed
junction's, and no other white piece lies within 2 pixels on both axes.
The "only if" direction (soundness) holds outright; the "if" direction
additionally needs x ≤ 20000 (the sentinel value of the cursor scan) and
that no junction on the same row has a smaller x, because the persistent
cursor stops at the first junction of the row and never revisits an earlier
one. -/
theorem white_piece_overlay_iff (e : ElidedRules) (ww : Int) (b1 b2 : Nat)
    (ls : List linerec) (k : Nat)
    (hk : k < (init_walls e ww b1 b2 ls).whites.length) :
    (((init_walls e ww b1 b2 ls).whites.getD k noWhite).hasj = true →
      ((init_walls e ww b1 b2 ls).whites.getD k noWhite).ht = 6 ∧
      8 < ((init_walls e ww b1 b2 ls).whites.getD k noWhite).x ∧
      ((init_walls e ww b1 b2 ls).whites.getD k noWhite).x < ww - 8 ∧
      (((init_walls e ww b1 b2 ls).whites.getD k noWhite).x,
        ((init_walls e ww b1 b2 ls).whites.getD k noWhite).y) ∈
          sortJunctions (findJunctions (endpoints ls)) ∧
      (∀ i2, i2 < (init_walls e ww b1 b2 ls).whites.length → i2 ≠ k →
        ¬(((init_walls e ww b1 b2 ls).whites.getD k noWhite).x - 2 ≤
            ((init_walls e ww b1 b2 ls).whites.getD i2 noWhite).x ∧
          ((init_walls e ww b1 b2 ls).whites.getD i2 noWhite).x ≤
            ((init_walls e ww b1 b2 ls).whites.getD k noWhite).x + 2 ∧
          ((init_walls e ww b1 b2 ls).whites.getD k noWhite).y - 2 ≤
            ((init_walls e ww b1 b2 ls).whites.getD i2 noWhite).y ∧
          ((init_walls e ww b1 b2 ls).whites.getD i2 noWhite).y ≤
            ((init_walls e ww b1 b2 ls).whites.getD k noWhite).y + 2))) ∧
    ((((init_walls e ww b1 b2 ls).whites.getD k noWhite).ht = 6 ∧
      8 < ((init_walls e ww b1 b2 ls).whites.getD k noWhite).x ∧
      ((init_walls e ww b1 b2 ls).whites.getD k noWhite).x < ww - 8 ∧
      ((init_walls e ww b1 b2 ls).whites.getD k noWhite).x ≤ 20000 ∧
      (((init_walls e ww b1 b2 ls).whites.getD k noWhite).x,
        ((init_walls e ww b1 b2 ls).whites.getD k noWhite).y) ∈
          sortJunctions (findJunctions (endpoints ls)) ∧
      (∀ j ∈ sortJunctions (findJunctions (endpoints ls)),
        j.2 = ((init_walls e ww b1 b2 ls).whites.getD k noWhite).y →
        ((init_walls e ww b1 b2 ls).whites.getD k noWhite).x ≤ j.1) ∧
      (∀ i2, i2 < (init_walls e ww b1 b2 ls).whites.length → i2 ≠ k →
        ¬(((init_walls e ww b1 b2 ls).whites.getD k noWhite).x - 2 ≤
            ((init_walls e ww b1 b2 ls).whites.getD i2 noWhite).x ∧
          ((init_walls e ww b1 b2 ls).whites.getD i2 noWhite).x ≤
            ((init_walls e ww b1 b2 ls).whites.getD k noWhite).x + 2 ∧
          ((init_walls e ww b1 b2 ls).whites.getD k noWhite).y - 2 ≤
            ((init_walls e ww b1 b2 ls).whites.getD i2 noWhite).y ∧
          ((init_walls e ww b1 b2 ls).whites.getD i2 noWhite).y ≤
            ((init_walls e ww b1 b2 ls).whites.getD k noWhite).y + 2))) →
      ((init_walls e ww b1 b2 ls).whites.getD k noWhite).hasj = true) := by
  have hws0 : allFalseHasj (mergeWhites (sortWhites
      (close_whites e ls (norm_whites ls)).whites)) := by
    intro p hp
    obtain ⟨q, hq, _, _, _, hqj⟩ := mem_mergeWhites _ _ (le_refl _) p hp
    rw [hqj]
    exact close_whites_hasj e ls (norm_whites ls) (norm_whites_hasj ls) q
      (mem_sortWhites q _ hq)
  have hsorted : (mergeWhites (sortWhites
      (close_whites e ls (norm_whites ls)).whites)).Pairwise wLexLe :=
    mergeWhites_pairwise _ _ (le_refl _) (sortWhites_pairwise _)
  have hjsorted : (sortJunctions (findJunctions (endpoints ls))).Pairwise
      (fun a b => a.1 ≤ b.1) :=
    sortJunctions_sorted (findJunctions (endpoints ls))
  have hjsep : (sortJunctions (findJunctions (endpoints ls))).Pairwise jSep :=
    sortJunctions_pairwise_jSep _ (by
      unfold findJunctions
      exact findJGo_pairwise (endpoints ls) [] (by simp))
  have hwhites : (init_walls e ww b1 b2 ls).whites =
      (hmAux ww b1 b2 []
        (mergeWhites (sortWhites (close_whites e ls (norm_whites ls)).whites))
        (sortJunctions (findJunctions (endpoints ls))) 0).1 := rfl
  have hmapout := hmAux_map_coords ww b1 b2
    (mergeWhites (sortWhites (close_whites e ls (norm_whites ls)).whites))
    [] (sortJunctions (findJunctions (endpoints ls))) 0
  simp only [List.reverse_nil, List.map_nil, List.nil_append] at hmapout
  have hlenout : (hmAux ww b1 b2 []
      (mergeWhites (sortWhites (close_whites e ls (norm_whites ls)).whites))
      (sortJunctions (findJunctions (endpoints ls))) 0).1.length =
      (mergeWhites (sortWhites
        (close_whites e ls (norm_whites ls)).whites)).length := by
    rw [hmAux_length]
    simp
  have hk0 : k < (mergeWhites (sortWhites
      (close_whites e ls (norm_whites ls)).whites)).length := by
    rw [hwhites, hmAux_length] at hk
    simp only [List.length_nil, Nat.zero_add] at hk
    exact hk
  have hco := coordsHt_getD_of_map_eq hmapout k (by rw [hlenout]; exact hk0)
  constructor
  · intro hj
    have hsound := hmAux_hasj_sound ww b1 b2
      (mergeWhites (sortWhites (close_whites e ls (norm_whites ls)).whites))
      hsorted
      (mergeWhites (sortWhites (close_whites e ls (norm_whites ls)).whites))
      [] (sortJunctions (findJunctions (endpoints ls))) 0 (by simp) (by simp)
      hws0 k hk0 (by
        rw [hwhites] at hj
        simpa using hj)
    obtain ⟨h1, h2, h3, h4, h5⟩ := hsound
    simp only [List.length_nil, Nat.zero_add] at h1 h2 h3 h4 h5
    refine ⟨?_, ?_, ?_, ?_, ?_⟩
    · rw [hwhites, hco.2.2]
      exact h1
    · rw [hwhites, hco.1]
      exact h2
    · rw [hwhites, hco.1]
      exact h3
    · rw [hwhites, hco.1, hco.2.1]
      exact h4
    · intro i2 hi2 hne
      rw [hwhites] at hi2 ⊢
      have hci2 := coordsHt_getD_of_map_eq hmapout i2 hi2
      rw [hlenout] at hi2
      intro hclose
      apply h5 i2 hi2 hne
      have e1 := hco.1
      have e2 := hco.2.1
      have f1 := hci2.1
      have f2 := hci2.2.1
      obtain ⟨a1, a2, a3, a4⟩ := hclose
      exact ⟨by omega, by omega, by omega, by omega⟩
  · intro hcond
    obtain ⟨hht, hx8, hxww, hx20k, hmem, hleast, hiso⟩ := hcond
    rw [hwhites] at hht hx8 hxww hx20k hmem
    rw [hco.2.2] at hht
    rw [hco.1] at hx8 hxww hx20k
    rw [hco.1, hco.2.1] at hmem
    have hleast0 : ∀ j ∈ sortJunctions (findJunctions (endpoints ls)),
        j.2 = ((mergeWhites (sortWhites
          (close_whites e ls (norm_whites ls)).whites)).getD k noWhite).y →
        ((mergeWhites (sortWhites
          (close_whites e ls (norm_whites ls)).whites)).getD k noWhite).x ≤
          j.1 := by
      intro j hjm hjy
      have := hleast j hjm (by rw [hwhites, hco.2.1]; exact hjy)
      rw [hwhites, hco.1] at this
      exact this
    have hiso0 : ∀ i2, i2 < (mergeWhites (sortWhites
          (close_whites e ls (norm_whites ls)).whites)).length → i2 ≠ k →
        ¬(((mergeWhites (sortWhites
            (close_whites e ls (norm_whites ls)).whites)).getD k noWhite).x -
              2 ≤
            ((mergeWhites (sortWhites
              (close_whites e ls (norm_whites ls)).whites)).getD i2
              noWhite).x ∧
          ((mergeWhites (sortWhites
            (close_whites e ls (norm_whites ls)).whites)).getD i2
            noWhite).x ≤
            ((mergeWhites (sortWhites
              (close_whites e ls (norm_whites ls)).whites)).getD k
              noWhite).x + 2 ∧
          ((mergeWhites (sortWhites
            (close_whites e ls (norm_whites ls)).whites)).getD k
            noWhite).y - 2 ≤
            ((mergeWhites (sortWhites
              (close_whites e ls (norm_whites ls)).whites)).getD i2
              noWhite).y ∧
          ((mergeWhites (sortWhites
            (close_whites e ls (norm_whites ls)).whites)).getD i2
            noWhite).y ≤
            ((mergeWhites (sortWhites
              (close_whites e ls (norm_whites ls)).whites)).getD k
              noWhite).y + 2) := by
      intro i2 hi2 hne
      have hi2out : i2 < (hmAux ww b1 b2 []
          (mergeWhites (sortWhites
            (close_whites e ls (norm_whites ls)).whites))
          (sortJunctions (findJunctions (endpoints ls))) 0).1.length := by
        rw [hlenout]
        exact hi2
      have hci2 := coordsHt_getD_of_map_eq hmapout i2 hi2out
      have hfar := hiso i2 (by rw [hwhites]; exact hi2out) hne
      rw [hwhites] at hfar
      intro hclose
      apply hfar
      have e1 := hco.1
      have e2 := hco.2.1
      have f1 := hci2.1
      have f2 := hci2.2.1
      obtain ⟨a1, a2, a3, a4⟩ := hclose
      exact ⟨by omega, by omega, by omega, by omega⟩
    have hout := hmAux_hasj_complete ww b1 b2
      (mergeWhites (sortWhites (close_whites e ls (norm_whites ls)).whites))
      (sortJunctions (findJunctions (endpoints ls))) hsorted hjsorted hjsep
      (mergeWhites (sortWhites (close_whites e ls (norm_whites ls)).whites))
      [] (sortJunctions (findJunctions (endpoints ls))) 0 (by simp) (by simp)
      (List.Sublist.refl _) (Nat.zero_le _) (fun j hj hnj => absurd hj hnj)
      k hk0
      (by simp only [List.length_nil, Nat.zero_add]; exact hht)
      (by simp only [List.length_nil, Nat.zero_add]; exact hx8)
      (by simp only [List.length_nil, Nat.zero_add]; exact hxww)
      (by simp only [List.length_nil, Nat.zero_add]; exact hx20k)
      (by simp only [List.length_nil, Nat.zero_add]; exact hmem)
      (by simp only [List.length_nil, Nat.zero_add]; exact hleast0)
      (by simp only [List.length_nil, Nat.zero_add]; exact hiso0)
    rw [hwhites]
    simpa using hout

def c5Wall : linerec := ⟨50, 30, 50, 50, 20, 1, 0, 0⟩

theorem c4_witness :
    ((init_walls noElided 100 0 0 [c4WallESE, c4WallS]).whites.getD 1
        noWhite).hasj = true ∧
    (((init_walls noElided 100 0 0 [c4WallESE, c4WallS]).whites.getD 1
        noWhite).x,
      ((init_walls noElided 100 0 0 [c4WallESE, c4WallS]).whites.getD 1
        noWhite).y) ∈
      sortJunctions (findJunctions (endpoints [c4WallESE, c4WallS])) :=
  ⟨by decide,
    ((white_piece_overlay_iff noElided 100 0 0 [c4WallESE, c4WallS] 1
      (by decide)).1 (by decide)).2.2.2.1⟩

theorem c5_witness :
    (init_walls noElided 200 0 0 [c5Wall]).junctions.length +
      countHasj (init_walls noElided 200 0 0 [c5Wall]).whites = 2 := by
  have h := (junction_consumed_once noElided 200 0 0 [c5Wall]).2
  rw [h]
  decide

/-! ## The draw routines white_wall_piece and eor_wall_piece -/

def LEFT_CLIP : Nat := 0x0000FFFF

def RIGHT_CLIP : Nat := 0xFFFF0000

def CENTER_CLIP : Nat := 0xFFFFFFFF

/-- rol.l of a 32-bit value by s bit positions (0 < s ≤ 32). -/
def rol32 (v s : Nat) : Nat :=
  ((v * 2 ^ s) % 2 ^ 32) ||| (v % 2 ^ 32) >>> (32 - s)

/-- The shift amount computed by and.w #15 / neg.w / add.w #16 on the
x coordinate: 16 minus the low four bits of x. -/
def shiftAmt (x : Int) : Nat := 16 - (x % 16).toNat

/-- The vertical clipping shared by both draw routines: a piece fully above
or below the view area is skipped, a partially visible one has its pattern
pointer and height adjusted; returns the rows actually drawn. -/
def vClipRows (viewht y height : Int) (rows : List Nat) :
    Option (List Nat) :=
  if y < 0 then
    if height + y ≤ 0 then none
    else some ((rows.drop (-y).toNat).take (height + y).toNat)
  else if y + height > viewht then
    if y ≥ viewht then none
    else some (rows.take (viewht - y).toNat)
  else some (rows.take height.toNat)

/-- white_wall_piece: AND-write of the shadow pattern.  Each drawn row is
the 16-bit pattern placed in the low word of an all-ones longword, rotated
into pixel position, then ORed with the complement of the selected clip
mask; the result is the longword ANDed into the screen (none = the routine
returned without writing). -/
def white_wall_piece (scrwth viewht x y height : Int) (rows : List Nat) :
    Option (List Nat) :=
  (vClipRows viewht y height rows).bind (fun rs =>
    if x < 0 then
      if x ≤ -16 then none
      else some (rs.map (fun row =>
        rol32 (0xFFFF0000 ||| row % 65536) (shiftAmt x) |||
          (0xFFFFFFFF ^^^ LEFT_CLIP)))
    else if x ≥ scrwth - 16 then
      if x ≥ scrwth then none
      else some (rs.map (fun row =>
        rol32 (0xFFFF0000 ||| row % 65536) (shiftAmt x) |||
          (0xFFFFFFFF ^^^ RIGHT_CLIP)))
    else some (rs.map (fun row =>
      rol32 (0xFFFF0000 ||| row % 65536) (shiftAmt x) |||
        (0xFFFFFFFF ^^^ CENTER_CLIP))))

/-- eor_wall_piece: XOR-write of the crosshatch pattern.  Each drawn row is
the 16-bit pattern in the low word of a zero longword, rotated into pixel
position, then ANDed with the selected clip mask; the result is the
longword XORed into the screen. -/
def eor_wall_piece (scrwth viewht x y height : Int) (rows : List Nat) :
    Option (List Nat) :=
  (vClipRows viewht y height rows).bind (fun rs =>
    if x < 0 then
      if x ≤ -16 then none
      else some (rs.map (fun row =>
        rol32 (row % 65536) (shiftAmt x) &&& LEFT_CLIP))
    else if x ≥ scrwth - 16 then
      if x ≥ scrwth then none
      else some (rs.map (fun row =>
        rol32 (row % 65536) (shiftAmt x) &&& RIGHT_CLIP))
    else some (rs.map (fun row =>
      rol32 (row % 65536) (shiftAmt x) &&& CENTER_CLIP)))

theorem testBit_ffff (i : Nat) : Nat.testBit 65535 i = decide (i < 16) := by
  rw [show (65535 : Nat) = 2 ^ 16 - 1 from by norm_num,
    Nat.testBit_two_pow_sub_one]

/-- C9 (confirmed): for any screen width of at least 16 pixels, a piece
whose screen-local x lies in [-15, -1] is drawn by both routines with only
the right-half of the destination longword touched (white_wall_piece keeps
every high bit set in its AND mask, eor_wall_piece keeps every high bit
clear in its XOR mask); a piece with x in [scrwth-15, scrwth-1] touches
only the left half; and a piece with x ≤ -16 or x ≥ scrwth is skipped
entirely, with nothing written. -/
theorem piece_draw_clipping (scrwth viewht x y height : Int)
    (rows : List Nat) (hs : 16 ≤ scrwth) :
    ((x ≤ -16 ∨ scrwth ≤ x) →
      white_wall_piece scrwth viewht x y height rows = none ∧
      eor_wall_piece scrwth viewht x y height rows = none) ∧
    (-15 ≤ x → x ≤ -1 →
      (∀ ms, white_wall_piece scrwth viewht x y height rows = some ms →
        ∀ m ∈ ms, ∀ i, 16 ≤ i → i < 32 → m.testBit i = true) ∧
      (∀ ms, eor_wall_piece scrwth viewht x y height rows = some ms →
        ∀ m ∈ ms, ∀ i, 16 ≤ i → m.testBit i = false)) ∧
    (scrwth - 15 ≤ x → x ≤ scrwth - 1 →
      (∀ ms, white_wall_piece scrwth viewht x y height rows = some ms →
        ∀ m ∈ ms, ∀ i, i < 16 → m.testBit i = true) ∧
      (∀ ms, eor_wall_piece scrwth viewht x y height rows = some ms →
        ∀ m ∈ ms, ∀ i, i < 16 → m.testBit i = false)) := by
  refine ⟨?_, ?_, ?_⟩
  · intro hx
    constructor
    · unfold white_wall_piece
      cases hv : vClipRows viewht y height rows with
      | none => rw [Option.none_bind]
      | some rs =>
        rw [Option.some_bind]
        rcases hx with hx | hx
        · rw [if_pos (by omega : x < 0), if_pos (by omega : x ≤ -16)]
        · rw [if_neg (by omega : ¬x < 0),
            if_pos (by omega : x ≥ scrwth - 16),
            if_pos (by omega : x ≥ scrwth)]
    · unfold eor_wall_piece
      cases hv : vClipRows viewht y height rows with
      | none => rw [Option.none_bind]
      | some rs =>
        rw [Option.some_bind]
        rcases hx with hx | hx
        · rw [if_pos (by omega : x < 0), if_pos (by omega : x ≤ -16)]
        · rw [if_neg (by omega : ¬x < 0),
            if_pos (by omega : x ≥ scrwth - 16),
            if_pos (by omega : x ≥ scrwth)]
  · intro h15 h1
    constructor
    · intro ms hms m hm i hi16 hi32
      unfold white_wall_piece at hms
      cases hv : vClipRows viewht y height rows with
      | none =>
        rw [hv, Option.none_bind] at hms
        exact absurd hms (by simp)
      | some rs =>
        rw [hv, Option.some_bind] at hms
        rw [if_pos (by omega : x < 0), if_neg (by omega : ¬x ≤ -16)] at hms
        rw [← Option.some.inj hms] at hm
        obtain ⟨row, _, rfl⟩ := List.mem_map.mp hm
        rw [show (0xFFFFFFFF ^^^ LEFT_CLIP : Nat) = 0xFFFF0000 from by decide]
        rw [Nat.testBit_or,
          show Nat.testBit 0xFFFF0000 i = true from by
            interval_cases i <;> decide]
        exact Bool.or_true _
    · intro ms hms m hm i hi16
      unfold eor_wall_piece at hms
      cases hv : vClipRows viewht y height rows with
      | none =>
        rw [hv, Option.none_bind] at hms
        exact absurd hms (by simp)
      | some rs =>
        rw [hv, Option.some_bind] at hms
        rw [if_pos (by omega : x < 0), if_neg (by omega : ¬x ≤ -16)] at hms
        rw [← Option.some.inj hms] at hm
        obtain ⟨row, _, rfl⟩ := List.mem_map.mp hm
        rw [show (LEFT_CLIP : Nat) = 65535 from rfl, Nat.testBit_and,
          testBit_ffff, decide_eq_false (by omega : ¬i < 16)]
        exact Bool.and_false _
  · intro hsl hsr
    constructor
    · intro ms hms m hm i hi16
      unfold white_wall_piece at hms
      cases hv : vClipRows viewht y height rows with
      | none =>
        rw [hv, Option.none_bind] at hms
        exact absurd hms (by simp)
      | some rs =>
        rw [hv, Option.some_bind] at hms
        rw [if_neg (by omega : ¬x < 0),
          if_pos (by omega : x ≥ scrwth - 16),
          if_neg (by omega : ¬x ≥ scrwth)] at hms
        rw [← Option.some.inj hms] at hm
        obtain ⟨row, _, rfl⟩ := List.mem_map.mp hm
        rw [show (0xFFFFFFFF ^^^ RIGHT_CLIP : Nat) = 65535 from by decide]
        rw [Nat.testBit_or, testBit_ffff, decide_eq_true (by omega : i < 16)]
        exact Bool.or_true _
    · intro ms hms m hm i hi16
      unfold eor_wall_piece at hms
      cases hv : vClipRows viewht y height rows with
      | none =>
        rw [hv, Option.none_bind] at hms
        exact absurd hms (by simp)
      | some rs =>
        rw [hv, Option.some_bind] at hms
        rw [if_neg (by omega : ¬x < 0),
          if_pos (by omega : x ≥ scrwth - 16),
          if_neg (by omega : ¬x ≥ scrwth)] at hms
        rw [← Option.some.inj hms] at hm
        obtain ⟨row, _, rfl⟩ := List.mem_map.mp hm
        rw [show (RIGHT_CLIP : Nat) = 0xFFFF0000 from rfl, Nat.testBit_and,
          show Nat.testBit 0xFFFF0000 i = false from by
            interval_cases i <;> decide]
        exact Bool.and_false _

theorem c9_witness :
    white_wall_piece 512 318 520 10 6 hash_figure = none ∧
    eor_wall_piece 512 318 520 10 6 hash_figure = none :=
  (piece_draw_clipping 512 318 520 10 6 hash_figure (by decide)).1
    (Or.inr (by decide))
